import Mathlib

/-!
Verification of the statsd core-metrics-engine specification against the
sources in `src/statsd`.  The embedding covers:

* `src/statsd/src/matchers/matcher_util.cpp` — `combinationMatch`,
  `getStartEndAtDepth`, `computeRanges`, `matchesSimple`;
* `src/statsd/src/state/StateTracker.cpp` — `updateStateForPrimaryKey`;
* `src/statsd/src/packages/UidMap.cpp` — `updateApp`, `removeApp`,
  `updateMap`, `ensureBytesUsedBelowLimit`, `appendUidMap`,
  `getMinimumTimestampNs`, `clearOutput`, `hasApp`, `getAppVersion`,
  `getAppNamesFromUid`, `getAppUid`;
* the configuration-diff decision procedure and the periodic-alarm
  rescheduling rule, which are exercised by
  `src/statsd/tests/metrics/parsing_utils/config_update_utils_test.cpp`
  but whose implementation files are not part of the source tree here;
  those two are modelled from the specification text (marked below).

Machine integers are modelled as `Int`/`Nat`; none of the verified paths
depend on overflow.  Indexed loops over `vector<FieldValue>` become folds
over `List.range'` with `List.getD`.
-/

namespace StatsdV

/-! ## Matcher engine: `matcher_util.cpp` -/

/-- Tri-state result of an atom-matching tracker.  The enum lives in
`AtomMatchingTracker.h` (kNotComputed, kNotMatched, kMatched); only the
latter two are inspected by `combinationMatch`. -/
inductive MatchingState where
  | notComputed
  | notMatched
  | matched
deriving DecidableEq, Repr

/-- Logical operations of combination matchers (`statsd_config.proto`). -/
inductive LogicalOperation where
  | and
  | or
  | not
  | nand
  | nor
  | unspecified
deriving DecidableEq, Repr

/-- Embedding of `combinationMatch` (matcher_util.cpp, lines 35-85).  The
C++ loops with early `break` are the corresponding `List.all`/`List.any`
folds; an out-of-range child index reads as `notComputed`. -/
def combinationMatch (children : List Nat) (operation : LogicalOperation)
    (matcherResults : List MatchingState) : Bool :=
  match operation with
  | .and =>
    children.all fun childIndex =>
      decide (matcherResults.getD childIndex .notComputed = .matched)
  | .or =>
    children.any fun childIndex =>
      decide (matcherResults.getD childIndex .notComputed = .matched)
  | .not =>
    decide (matcherResults.getD (children.headD 0) .notComputed = .notMatched)
  | .nand =>
    children.any fun childIndex =>
      decide (matcherResults.getD childIndex .notComputed ≠ .matched)
  | .nor =>
    children.all fun childIndex =>
      decide (matcherResults.getD childIndex .notComputed ≠ .matched)
  | .unspecified => false

/-- Position qualifier for repeated fields (`statsd_config.proto`). -/
inductive Position where
  | first
  | last
  | any
  | all
  | positionUnknown
deriving DecidableEq, Repr

/-- Modelled from the spec: `FieldValue.h` is not in src/.  A field path is
up to three positions, plus per-depth is-last-sibling flags; the source
packs this into an `int32` and exposes it through `getPosAtDepth` and
`isLastPos`, which are the only accessors `matcher_util.cpp` uses. -/
structure Field where
  pos : List Nat
  lastFlags : List Bool
deriving DecidableEq, Repr

def Field.getPosAtDepth (f : Field) (depth : Nat) : Nat :=
  f.pos.getD depth 0

def Field.isLastPos (f : Field) (depth : Nat) : Bool :=
  f.lastFlags.getD depth false

/-- Tagged primitive value of one event field.  Float values and
storage-key values never reach the verified matching paths and are
omitted; `vInt`/`vLong` mirror the INT/LONG type tags. -/
inductive Value where
  | vInt (i : Int)
  | vLong (i : Int)
  | vStr (s : String)
deriving DecidableEq, Repr

structure FieldValue where
  mField : Field
  mValue : Value
deriving DecidableEq, Repr

def defaultFieldValue : FieldValue := ⟨⟨[], []⟩, .vInt 0⟩

/-- Position of `values[i]` at `depth` (reads as 0 when out of range, which
no verified path exercises). -/
def posAt (values : List FieldValue) (i depth : Nat) : Nat :=
  (values.getD i defaultFieldValue).mField.getPosAtDepth depth

mutual
inductive ValueMatcher where
  | eqBool (b : Bool)
  | eqString (s : String)
  | eqAnyString (ss : List String)
  | neqAnyString (ss : List String)
  | eqInt (v : Int)
  | eqAnyInt (vs : List Int)
  | neqAnyInt (vs : List Int)
  | ltInt (v : Int)
  | gtInt (v : Int)
  | lteInt (v : Int)
  | gteInt (v : Int)
  | matchesTuple (ms : FVMList)
inductive FieldValueMatcher where
  | mk (field : Nat) (position : Option Position) (valueMatcher : ValueMatcher)
inductive FVMList where
  | nil
  | cons (m : FieldValueMatcher) (rest : FVMList)
end

def FieldValueMatcher.field : FieldValueMatcher → Nat
  | .mk f _ _ => f

def FieldValueMatcher.position : FieldValueMatcher → Option Position
  | .mk _ p _ => p

def FieldValueMatcher.valueMatcher : FieldValueMatcher → ValueMatcher
  | .mk _ _ vm => vm

def FVMList.toList : FVMList → List FieldValueMatcher
  | .nil => []
  | .cons m rest => m :: rest.toList

/-- Modelled in part from the spec: the attribution-uid branch of
`tryMatchString` resolves uids through the `UidMap` and the `AID_*` table
via field annotations defined outside src/; the verified paths use plain
string fields, for which the source compares `str_value` for equality. -/
def tryMatchString (fieldValue : FieldValue) (strMatch : String) : Bool :=
  match fieldValue.mValue with
  | .vStr s => s == strMatch
  | _ => false

/-- Embedding of `getStartEndAtDepth` (matcher_util.cpp, lines 130-150):
scan `[start, end)` for the contiguous range whose position at `depth`
equals `targetField`; the DFS order lets the scan stop once the position
exceeds the target.  `newStart = -1` becomes `none`; the early `break`
becomes a done flag threaded through the fold. -/
def getStartEndStep (targetField depth : Nat) (values : List FieldValue)
    (st : Option Nat × Nat × Bool) (i : Nat) : Option Nat × Nat × Bool :=
  if st.2.2 then st
  else
    let pos := posAt values i depth
    if pos = targetField then (some (st.1.getD i), i + 1, false)
    else if pos > targetField then (st.1, st.2.1, true)
    else st

def getStartEndAtDepth (targetField start end_ depth : Nat)
    (values : List FieldValue) : Option Nat × Nat :=
  let out := (List.range' start (end_ - start)).foldl
    (getStartEndStep targetField depth values) (none, end_, false)
  (out.1, out.2.1)

/-- Loop of the `Position::FIRST` case of `computeRanges`: the new end is
the first index whose position at `depth` differs from 1. -/
def firstPositionEnd (start end_ depth : Nat) (values : List FieldValue) : Nat :=
  match (List.range' start (end_ - start)).find? fun i =>
      decide (posAt values i depth ≠ 1) with
  | some i => i
  | none => end_

/-- Loop of the `Position::LAST` case of `computeRanges`: the new start is
the first index flagged is-last at `depth` (unchanged if none is). -/
def lastPositionStart (start end_ depth : Nat) (values : List FieldValue) : Nat :=
  match (List.range' start (end_ - start)).find? fun i =>
      (values.getD i defaultFieldValue).mField.isLastPos depth with
  | some i => i
  | none => start

/-- Loop of the `Position::ANY`-with-`matches_tuple` case of
`computeRanges` (lines 208-220): walk `[i, end)` splitting a sub-range
whenever the position at `depth` changes, then close the final sub-range
at `end`.  The index loop is run on explicit fuel `end - i`. -/
def splitSubtreesAux (depth : Nat) (values : List FieldValue) (end_ : Nat) :
    Nat → Nat → Nat → Nat → List (Nat × Nat)
  | 0, _, start, _ => [(start, end_)]
  | fuel + 1, i, start, currentPos =>
    if i < end_ then
      let newPos := posAt values i depth
      if newPos ≠ currentPos then
        (start, i) :: splitSubtreesAux depth values end_ fuel (i + 1) i newPos
      else
        splitSubtreesAux depth values end_ fuel (i + 1) start currentPos
    else [(start, end_)]

def splitSubtrees (depth : Nat) (values : List FieldValue) (start end_ : Nat) :
    List (Nat × Nat) :=
  splitSubtreesAux depth values end_ (end_ - start) start start
    (posAt values start depth)

/-- Embedding of `computeRanges` (matcher_util.cpp, lines 161-235).  The
C++ updates `depth` through a reference; here the updated depth is the
second component of the result. -/
def computeRanges (matcher : FieldValueMatcher) (values : List FieldValue)
    (start end_ depth : Nat) : List (Nat × Nat) × Nat :=
  match getStartEndAtDepth matcher.field start end_ depth values with
  | (none, _) => ([], depth)
  | (some newStart, newEnd) =>
    match matcher.position with
    | some pos =>
      let depth1 := depth + 1
      if depth1 > 2 then ([], depth1)
      else
        match pos with
        | .first =>
          ([(newStart, firstPositionEnd newStart newEnd depth1 values)], depth1)
        | .last =>
          ([(lastPositionStart newStart newEnd depth1 values, newEnd)], depth1)
        | .any =>
          match matcher.valueMatcher with
          | .matchesTuple _ => (splitSubtrees depth1 values newStart newEnd, depth1)
          | _ => ([(newStart, newEnd)], depth1)
        | .all => ([], depth1)
        | .positionUnknown => ([], depth1)
    | none => ([(newStart, newEnd)], depth)

/-- Leaf loops of `matchesSimple`: true iff some value in `[rs, re)`
satisfies `p`. -/
def anyValueInRange (values : List FieldValue) (rs re : Nat)
    (p : FieldValue → Bool) : Bool :=
  (List.range' rs (re - rs)).any fun i => p (values.getD i defaultFieldValue)

def valueEqBool (b : Bool) (v : FieldValue) : Bool :=
  match v.mValue with
  | .vInt i => decide (i ≠ 0) == b
  | .vLong i => decide (i ≠ 0) == b
  | _ => false

def valueEqInt (n : Int) (v : FieldValue) : Bool :=
  match v.mValue with
  | .vInt i => n == i
  | .vLong i => n == i
  | _ => false

def valueLtInt (n : Int) (v : FieldValue) : Bool :=
  match v.mValue with
  | .vInt i => decide (i < n)
  | .vLong i => decide (i < n)
  | _ => false

def valueGtInt (n : Int) (v : FieldValue) : Bool :=
  match v.mValue with
  | .vInt i => decide (i > n)
  | .vLong i => decide (i > n)
  | _ => false

def valueLteInt (n : Int) (v : FieldValue) : Bool :=
  match v.mValue with
  | .vInt i => decide (i ≤ n)
  | .vLong i => decide (i ≤ n)
  | _ => false

def valueGteInt (n : Int) (v : FieldValue) : Bool :=
  match v.mValue with
  | .vInt i => decide (i ≥ n)
  | .vLong i => decide (i ≥ n)
  | _ => false

mutual
/-- Embedding of the recursive `matchesSimple` overload
(matcher_util.cpp, lines 237-490).  Wildcard and float value matchers are
not embedded (fnmatch and floating point; no verified path uses them);
every other case is the corresponding range loop.  For `matches_tuple`
the source iterates every range returned by `computeRanges` and succeeds
iff some range satisfies all sub-matchers. -/
def matchesSimple : FieldValueMatcher → List FieldValue → Nat → Nat → Nat → Bool
  | .mk f pos vm, values, start, end_, depth =>
    if depth > 2 then false
    else if start ≥ end_ then false
    else
      let rd := computeRanges (.mk f pos vm) values start end_ depth
      match rd.1 with
      | [] => false
      | (rs, re) :: _ =>
        match vm with
        | .matchesTuple subs =>
          rd.1.any fun r => allSubMatchersMatch subs values r.1 r.2 (rd.2 + 1)
        | .eqBool b => anyValueInRange values rs re (valueEqBool b)
        | .eqString s => anyValueInRange values rs re (tryMatchString · s)
        | .eqAnyString ss =>
          anyValueInRange values rs re fun v => ss.any fun s => tryMatchString v s
        | .neqAnyString ss =>
          anyValueInRange values rs re fun v => ss.all fun s => !tryMatchString v s
        | .eqInt n => anyValueInRange values rs re (valueEqInt n)
        | .eqAnyInt ns =>
          anyValueInRange values rs re fun v => ns.any fun n => valueEqInt n v
        | .neqAnyInt ns =>
          anyValueInRange values rs re fun v => ns.all fun n => !valueEqInt n v
        | .ltInt n => anyValueInRange values rs re (valueLtInt n)
        | .gtInt n => anyValueInRange values rs re (valueGtInt n)
        | .lteInt n => anyValueInRange values rs re (valueLteInt n)
        | .gteInt n => anyValueInRange values rs re (valueGteInt n)

/-- The inner loop of the `matches_tuple` case: every sub-matcher must
match over the given range. -/
def allSubMatchersMatch : FVMList → List FieldValue → Nat → Nat → Nat → Bool
  | .nil, _, _, _, _ => true
  | .cons m rest, values, rs, re, d =>
    matchesSimple m values rs re d && allSubMatchersMatch rest values rs re d
end

/-! Specification-side description of the ANY/`matches_tuple` sub-ranges:
`[s, e)` is cut into the maximal contiguous blocks on which the position
at `depth` is constant.  This is written independently of the source's
split loop (`splitSubtreesAux`); their agreement is proved below. -/

/-- First index in `[i, e)` whose position at `depth` differs from `p`
(`e` if none does). -/
def runEnd (depth : Nat) (values : List FieldValue) (p i e : Nat) : Nat :=
  match (List.range' i (e - i)).find? (fun j => decide (posAt values j depth ≠ p)) with
  | some j => j
  | none => e

/-- Maximal constant-position blocks of `[s, e)` at `depth`, as
half-open index pairs. -/
def posRuns (depth : Nat) (values : List FieldValue) (s e : Nat) :
    List (Nat × Nat) :=
  if h : s < e then
    (s, runEnd depth values (posAt values s depth) (s + 1) e) ::
      posRuns depth values (runEnd depth values (posAt values s depth) (s + 1) e) e
  else []
termination_by e - s
decreasing_by
  simp only [runEnd]
  rcases hfind : (List.range' (s + 1) (e - (s + 1))).find?
      (fun j => decide (posAt values j depth ≠ posAt values s depth)) with _ | j
  · simp only [hfind]
    omega
  · simp only [hfind]
    have hj := List.mem_range'_1.mp (List.mem_of_find?_eq_some hfind)
    omega

/-- DFS-sortedness of a range: the position at `depth` never decreases
from one value to the next inside `[s, e)`. -/
def nonDecreasingPos (depth : Nat) (values : List FieldValue) (s e : Nat) : Bool :=
  (List.range' s (e - s)).all fun i =>
    decide (i + 1 ≥ e) || decide (posAt values i depth ≤ posAt values (i + 1) depth)

/-- Scenario data of spec §8 item 6: an atom whose field 1 repeats two
attribution nodes, `(uid=10, tag="B")` at position 1 and
`(uid=11, tag="A")` at position 2, in DFS order. -/
def attributionValues : List FieldValue :=
  [ ⟨⟨[1, 1, 1], [true, false, false]⟩, .vInt 10⟩,
    ⟨⟨[1, 1, 2], [true, false, true]⟩, .vStr "B"⟩,
    ⟨⟨[1, 2, 1], [true, true, false]⟩, .vInt 11⟩,
    ⟨⟨[1, 2, 2], [true, true, true]⟩, .vStr "A"⟩ ]

/-- Tuple sub-matchers of spec §8 item 6: `uid = 10 AND tag = "A"`. -/
def demoSubMatchers : FVMList :=
  .cons (.mk 1 none (.eqInt 10)) (.cons (.mk 2 none (.eqString "A")) .nil)

/-! ## Configuration diff: preserve/replace decision for matchers

`config_update_utils.cpp` is not part of the source tree here; only its
test `config_update_utils_test.cpp` is.  The decision procedure is
modelled from the spec (§4.8): PRESERVE if an old node with the same id
exists, the serialized definitions are equal, and every dependency is
PRESERVE; REPLACE if such an old node exists but the definition differs or
some dependency is not preserved; NEW if no old node has that id. -/

/-- Per-node outcome of the configuration diff (`UpdateStatus` in
config_update_utils.h; modelled from the spec). -/
inductive UpdateStatus where
  | updateUnknown
  | updatePreserve
  | updateReplace
  | updateNew
deriving DecidableEq, Repr

/-- Modelled from the spec: the canonical byte-serialization of an atom
matcher definition.  A simple matcher is identified by its serialized
body (here: its atom id, the only part the tests vary); a combination
matcher by its logical operation and the ids of its children. -/
inductive MatcherDef where
  | simple (atomId : Nat)
  | combination (operation : LogicalOperation) (children : List Int)
deriving DecidableEq, Repr

/-- Lookup of a matcher definition by id in a configuration, an
association list `id ↦ definition` in declaration order. -/
def lookupDef : List (Int × MatcherDef) → Int → Option MatcherDef
  | [], _ => none
  | (k, d) :: rest, id => if id = k then some d else lookupDef rest id

/-- Modelled from the spec: `determineMatcherUpdateStatus`.  The source's
single DFS over tracker indices with a cycle marker becomes a recursion
on explicit fuel over matcher ids; `updateUnknown` is the out-of-fuel /
missing-id answer, which no valid (acyclic, closed) call reaches. -/
def determineMatcherUpdateStatus (oldConfig newConfig : List (Int × MatcherDef)) :
    Nat → Int → UpdateStatus
  | 0, _ => .updateUnknown
  | fuel + 1, id =>
    match lookupDef newConfig id with
    | none => .updateUnknown
    | some newDef =>
      match lookupDef oldConfig id with
      | none => .updateNew
      | some oldDef =>
        if newDef ≠ oldDef then .updateReplace
        else
          match newDef with
          | .simple _ => .updatePreserve
          | .combination _ children =>
            if children.all fun child =>
                decide (determineMatcherUpdateStatus oldConfig newConfig fuel child
                  = .updatePreserve)
            then .updatePreserve
            else .updateReplace

/-- The old configuration of `TestCombinationMatcherPreserve` /
`TestCombinationMatcherDepsChange`: two simple matchers (atoms 10, 11)
and an OR combination of both. -/
def oldTestConfig : List (Int × MatcherDef) :=
  [(1, .simple 10), (2, .simple 11), (3, .combination .or [1, 2])]

/-- The reordered but otherwise identical new configuration of
`TestCombinationMatcherPreserve`. -/
def newTestConfigPreserve : List (Int × MatcherDef) :=
  [(2, .simple 11), (3, .combination .or [1, 2]), (1, .simple 10)]

/-- The new configuration of `TestCombinationMatcherDepsChange`: matcher 2
changes its atom id to 12; the combination's own definition is
byte-identical to the old one. -/
def newTestConfigDepsChange : List (Int × MatcherDef) :=
  [(2, .simple 12), (3, .combination .or [1, 2]), (1, .simple 10)]

/-! ## State tracker: `StateTracker.cpp` -/

/-- Sentinel for an unknown state (`StateTracker.h`). -/
def kStateUnknown : Int := -1

/-- Per-primary-key entry of `mStateMap` (`StateValueInfo` in
`StateTracker.h`: a state value and a nested count, default-constructed
as `(kStateUnknown, 0)`). -/
structure StateValueInfo where
  state : Int
  count : Int
deriving DecidableEq, Repr

/-- Embedding of `StateTracker::updateStateForPrimaryKey`
(StateTracker.cpp, lines 112-163) for one primary key.  `entry` is the
key's slot of `mStateMap` (`none` = absent; `mStateMap[primaryKey]`
default-constructs `(kStateUnknown, 0)` for an absent key before the
update).  Returns the key's slot after the update — the source erases the
entry when the new state is `kStateUnknown` — together with whether
listeners were notified. -/
def updateStateForPrimaryKey (newStateValue : Int) (nested : Bool)
    (entry : Option StateValueInfo) : Option StateValueInfo × Bool :=
  let svi := entry.getD ⟨kStateUnknown, 0⟩
  let oldStateValue := svi.state
  let res : StateValueInfo × Bool :=
    if !nested then
      if newStateValue ≠ oldStateValue then (⟨newStateValue, 1⟩, true)
      else (svi, false)
    else if newStateValue = kStateUnknown then
      (svi, oldStateValue ≠ kStateUnknown)
    else if oldStateValue = kStateUnknown then (⟨newStateValue, 1⟩, true)
    else if oldStateValue = newStateValue then (⟨svi.state, svi.count + 1⟩, false)
    else if svi.count - 1 = 0 then (⟨newStateValue, 1⟩, true)
    else (⟨svi.state, svi.count - 1⟩, false)
  if newStateValue = kStateUnknown then (none, res.2) else (some res.1, res.2)

/-- Fold a sequence of nested state events for one primary key over an
initially absent entry. -/
def runNested (events : List Int) : Option StateValueInfo :=
  events.foldl (fun entry x => (updateStateForPrimaryKey x true entry).1) none

/-- Invariant tying the tracker slot for a two-state nested sequence to
the running count `d` = (#A − #B): the slot holds the leader with a count
within one of `|d|`. -/
def NestedInv (A B : Int) (entry : Option StateValueInfo) (d : Int) : Prop :=
  (entry = none ∧ d = 0) ∨
    (∃ c, entry = some ⟨A, c⟩ ∧ 1 ≤ c ∧ (d = c ∨ d = c - 1)) ∨
    (∃ c, entry = some ⟨B, c⟩ ∧ 1 ≤ c ∧ (d = -c ∨ d = 1 - c))

/-! ## Periodic alarm rescheduling -/

/-- Modelled from the spec: `AlarmTracker`'s next-fire computation is not
in src/ (only `TestUpdateAlarms` is).  Per §4.6 together with §8
scenario 7 and the test's expectations: when `now` is before the offset
the alarm first fires at the offset itself; otherwise it fires at the
next multiple of the period past the offset that is strictly after
`now`.  Times are whole seconds. -/
def findNextAlarmSec (offsetSec periodSec nowSec : Nat) : Nat :=
  if nowSec < offsetSec then offsetSec
  else offsetSec + ((nowSec - offsetSec) / periodSec + 1) * periodSec

/-- The claim's next-fire rule taken literally: the smallest
`t_k = offset + k·period` with `k ≥ 1` such that `t_k ≥ now` (seconds).
Proved to be exactly that least element below
(`claimNextAlarmSec_least`). -/
def claimNextAlarmSec (offsetSec periodSec nowSec : Nat) : Nat :=
  if nowSec ≤ offsetSec + periodSec then offsetSec + periodSec
  else offsetSec +
    ((nowSec - offsetSec + periodSec - 1) / periodSec) * periodSec

/-! ## UID map: `UidMap.cpp`

`mMap` (an `unordered_map<pair<int,string>, AppData>`) and
`mLastUpdatePerConfigKey` (a `map<ConfigKey, int64_t>`) are modelled as
association lists; a `ConfigKey` is a `Nat`.  `kBytesChangeRecord`
(`sizeof(ChangeRecord)`) and the byte limit (`maxBytesOverride` /
`StatsdStats::kMaxBytesUsedUidMap`) live outside src/ and are passed as
parameters.  Proto output is modelled as the list of records emitted;
notification flags mean "the subscriber callback would run, were a live
listener registered". -/

def alookup {α β : Type} [DecidableEq α] : List (α × β) → α → Option β
  | [], _ => none
  | (k, d) :: rest, key => if key = k then some d else alookup rest key

def aupdate {α β : Type} [DecidableEq α] : List (α × β) → α → β → List (α × β)
  | [], key, v => [(key, v)]
  | (k, d) :: rest, key, v =>
    if key = k then (key, v) :: rest else (k, d) :: aupdate rest key v

def aerase {α β : Type} [DecidableEq α] : List (α × β) → α → List (α × β)
  | [], _ => []
  | (k, d) :: rest, key => if key = k then rest else (k, d) :: aerase rest key

/-- `AppData` of `UidMap.h`: the constructor sets `deleted = false`. -/
structure AppData where
  versionCode : Int
  versionString : String
  installer : String
  certificateHash : String
  deleted : Bool
deriving DecidableEq, Repr

/-- `ChangeRecord` of `UidMap.h`. -/
structure ChangeRecord where
  deletion : Bool
  timestampNs : Int
  package : String
  uid : Int
  version : Int
  versionString : String
  prevVersion : Int
  prevVersionString : String
deriving DecidableEq, Repr

/-- One `app_info` element of the `UidData` proto consumed by
`updateMap`. -/
structure AppInfo where
  uid : Int
  packageName : String
  version : Int
  versionString : String
  installer : String
  certificateHash : String
deriving DecidableEq, Repr

/-- The mutable state of `UidMap` touched by the verified operations. -/
structure UidMapState where
  mMap : List ((Int × String) × AppData)
  mChanges : List ChangeRecord
  mBytesUsed : Nat
  mDeletedApps : List (Int × String)
  mLastUpdatePerConfigKey : List (Nat × Int)
deriving DecidableEq, Repr

def emptyUidMapState : UidMapState := ⟨[], [], 0, [], []⟩

/-- Embedding of `UidMap::hasApp` (UidMap.cpp, lines 83-88). -/
def hasApp (st : UidMapState) (uid : Int) (packageName : String) : Bool :=
  match alookup st.mMap (uid, packageName) with
  | some d => !d.deleted
  | none => false

/-- Embedding of `UidMap::getAppVersion` (lines 111-119). -/
def getAppVersion (st : UidMapState) (uid : Int) (packageName : String) : Int :=
  match alookup st.mMap (uid, packageName) with
  | some d => if d.deleted then 0 else d.versionCode
  | none => 0

/-- Embedding of `UidMap::normalizeAppName` (lines 90-94). -/
def normalizeAppName (appName : String) : String := appName.toLower

/-- Embedding of `UidMap::getAppNamesFromUidLocked` (lines 101-109); the
`std::set` result is the list of names in map order. -/
def getAppNamesFromUid (st : UidMapState) (uid : Int) (returnNormalized : Bool) :
    List String :=
  (st.mMap.filter fun kv => decide (kv.1.1 = uid) && !kv.2.deleted).map
    fun kv => if returnNormalized then normalizeAppName kv.1.2 else kv.1.2

/-- Embedding of `UidMap::getAppUid` (lines 532-542). -/
def getAppUid (st : UidMapState) (package : String) : List Int :=
  (st.mMap.filter fun kv => kv.1.2 == package && !kv.2.deleted).map
    fun kv => kv.1.1

/-- Embedding of `UidMap::ensureBytesUsedBelowLimit` (lines 209-224):
while over budget, drop the oldest change record (list head) and charge
back its cost.  The C++ loop would spin if it ran out of records while
over budget; state reachable by the verified operations keeps
`bytes = kBytes · |changes|`, under which the loop always exits. -/
def ensureBytesUsedBelowLimit (kBytes limit : Nat) :
    List ChangeRecord → Nat → List ChangeRecord × Nat
  | changes, bytes =>
    if bytes > limit then
      match changes with
      | [] => ([], bytes)
      | _ :: rest => ensureBytesUsedBelowLimit kBytes limit rest (bytes - kBytes)
    else (changes, bytes)

/-- Embedding of `UidMap::updateApp` (lines 164-207): upsert the entry
(clearing its tombstone), append a change record, re-check the byte
budget; the subscriber is notified iff the key already existed. -/
def updateApp (kBytes limit : Nat) (timestamp : Int) (appName : String)
    (uid : Int) (versionCode : Int) (versionString installer certificateHash : String)
    (st : UidMapState) : UidMapState × Bool :=
  let key := (uid, appName)
  let existing := alookup st.mMap key
  let prevVersion : Int :=
    match existing with
    | some d => d.versionCode
    | none => 0
  let prevVersionString : String :=
    match existing with
    | some d => d.versionString
    | none => ""
  let map2 := aupdate st.mMap key
    ⟨versionCode, versionString, installer, certificateHash, false⟩
  let change : ChangeRecord :=
    ⟨false, timestamp, appName, uid, versionCode, versionString,
      prevVersion, prevVersionString⟩
  let eb := ensureBytesUsedBelowLimit kBytes limit (st.mChanges ++ [change])
    (st.mBytesUsed + kBytes)
  ({ st with mMap := map2, mChanges := eb.1, mBytesUsed := eb.2 },
    existing.isSome)

/-- Embedding of `UidMap::removeApp` (lines 226-260): tombstone a live
entry, evict the oldest tombstone past `kMaxDeleted`, append a deletion
record, re-check the byte budget; the subscriber is always notified. -/
def removeApp (kBytes limit kMaxDeleted : Nat) (timestamp : Int) (app : String)
    (uid : Int) (st : UidMapState) : UidMapState × Bool :=
  let key := (uid, app)
  let hit : Option AppData :=
    match alookup st.mMap key with
    | some d => if d.deleted then none else some d
    | none => none
  let prevVersion : Int :=
    match hit with
    | some d => d.versionCode
    | none => 0
  let prevVersionString : String :=
    match hit with
    | some d => d.versionString
    | none => ""
  let map1 :=
    match hit with
    | some d => aupdate st.mMap key { d with deleted := true }
    | none => st.mMap
  let deleted1 :=
    match hit with
    | some _ => st.mDeletedApps ++ [key]
    | none => st.mDeletedApps
  let evict := deleted1.length > kMaxDeleted
  let map2 := if evict then aerase map1 (deleted1.headD key) else map1
  let deleted2 := if evict then deleted1.tail else deleted1
  let change : ChangeRecord :=
    ⟨true, timestamp, app, uid, 0, "", prevVersion, prevVersionString⟩
  let eb := ensureBytesUsedBelowLimit kBytes limit (st.mChanges ++ [change])
    (st.mBytesUsed + kBytes)
  ({ st with
      mMap := map2
      mDeletedApps := deleted2
      mChanges := eb.1
      mBytesUsed := eb.2 }, true)

/-- Embedding of `UidMap::updateMap` (lines 121-162): rebuild the map from
the snapshot, re-attach previously-deleted entries whose key survives,
re-check the byte budget. -/
def updateMap (kBytes limit : Nat) (uidData : List AppInfo) (st : UidMapState) :
    UidMapState :=
  let deletedApps := st.mMap.filter fun kv => kv.2.deleted
  let newMap := uidData.foldl
    (fun m a => aupdate m (a.uid, a.packageName)
      ⟨a.version, a.versionString, a.installer, a.certificateHash, false⟩) []
  let withDeleted := deletedApps.foldl
    (fun m kv => if (alookup m kv.1).isSome then aupdate m kv.1 kv.2 else m) newMap
  let eb := ensureBytesUsedBelowLimit kBytes limit st.mChanges st.mBytesUsed
  { st with mMap := withDeleted, mChanges := eb.1, mBytesUsed := eb.2 }

/-- Embedding of `UidMap::clearOutput` (lines 292-298). -/
def clearOutput (st : UidMapState) : UidMapState :=
  { st with mChanges := [], mBytesUsed := 0 }

/-- Loop body of `UidMap::getMinimumTimestampNs`: take the entry's value
when the accumulator is still 0, else keep the smaller. -/
def minFold (m : Int) (kv : Nat × Int) : Int :=
  if m = 0 then kv.2 else if kv.2 < m then kv.2 else m

/-- Embedding of `UidMap::getMinimumTimestampNs` (lines 300-310), kept
verbatim including its treatment of a zero accumulator. -/
def getMinimumTimestampNs (marks : List (Nat × Int)) : Int :=
  marks.foldl minFold 0

/-- Embedding of the state effects of `UidMap::appendUidMap`
(lines 411-502): reading `mLastUpdatePerConfigKey[key]` default-inserts 0
for an unknown config; records strictly newer than that mark are emitted
(first component); the mark advances to `timestamp`; when the minimum
mark strictly increased, records older than the new minimum are erased
and their bytes refunded.  The snapshot and installer-list proto output
carries no state. -/
def appendUidMap (kBytes : Nat) (timestamp : Int) (key : Nat)
    (st : UidMapState) : List ChangeRecord × UidMapState :=
  let marks1 :=
    if (alookup st.mLastUpdatePerConfigKey key).isSome
    then st.mLastUpdatePerConfigKey
    else st.mLastUpdatePerConfigKey ++ [(key, 0)]
  let lastMark := (alookup marks1 key).getD 0
  let emitted := st.mChanges.filter fun r => decide (r.timestampNs > lastMark)
  let prevMin := getMinimumTimestampNs marks1
  let marks2 := aupdate marks1 key timestamp
  let newMin := getMinimumTimestampNs marks2
  if newMin > prevMin then
    (emitted,
      { st with
          mChanges := st.mChanges.filter fun r => !decide (r.timestampNs < newMin),
          mBytesUsed := st.mBytesUsed -
            kBytes * (st.mChanges.filter fun r => decide (r.timestampNs < newMin)).length,
          mLastUpdatePerConfigKey := marks2 })
  else (emitted, { st with mLastUpdatePerConfigKey := marks2 })

/-- One report round: `appendUidMap` once per config, each call a
`(config key, dump time)` pair. -/
def appendRound (kBytes : Nat) (calls : List (Nat × Int)) (st : UidMapState) :
    UidMapState :=
  calls.foldl (fun s c => (appendUidMap kBytes c.2 c.1 s).2) st

/-- The byte-budget guardrail invariant: the accounted bytes are exactly
the change records' cost and stay within the limit. -/
def BytesInv (kBytes limit : Nat) (st : UidMapState) : Prop :=
  st.mBytesUsed = kBytes * st.mChanges.length ∧ st.mBytesUsed ≤ limit

/-- A map state in which `(5, "app")` was installed at t=10 and removed
at t=20, leaving a tombstoned entry. -/
def tombstonedState : UidMapState :=
  (removeApp 100 1000 2 20 "app" 5
    ((updateApp 100 1000 10 "app" 5 1 "v1" "inst" "" emptyUidMapState).1)).1

/-- A state with two registered configs (marks 5 and 7) and three change
records (timestamps 3, 6, 12), for exercising a report round at t=10. -/
def roundDemoState : UidMapState :=
  ⟨[],
    [⟨false, 3, "a", 1, 1, "", 0, ""⟩, ⟨false, 6, "b", 2, 1, "", 0, ""⟩,
      ⟨false, 12, "c", 3, 1, "", 0, ""⟩],
    300, [], [(1, 5), (2, 7)]⟩

end StatsdV

namespace StatsdV

/-- C4: `combinationMatch` returns: AND — true iff every child is matched;
OR — true iff some child is matched; NOT — true iff the single child is
explicitly not-matched (a not-computed child does not count); NAND — true
iff some child is not matched; NOR — true iff no child is matched;
LOGICAL_OPERATION_UNSPECIFIED — always false. -/
theorem combinationMatch_semantics :
    (∀ (children : List Nat) (results : List MatchingState),
      combinationMatch children .and results = true ↔
        ∀ c ∈ children, results.getD c .notComputed = .matched) ∧
    (∀ (children : List Nat) (results : List MatchingState),
      combinationMatch children .or results = true ↔
        ∃ c ∈ children, results.getD c .notComputed = .matched) ∧
    (∀ (c : Nat) (results : List MatchingState),
      combinationMatch [c] .not results = true ↔
        results.getD c .notComputed = .notMatched) ∧
    (∀ (children : List Nat) (results : List MatchingState),
      combinationMatch children .nand results = true ↔
        ∃ c ∈ children, results.getD c .notComputed ≠ .matched) ∧
    (∀ (children : List Nat) (results : List MatchingState),
      combinationMatch children .nor results = true ↔
        ∀ c ∈ children, results.getD c .notComputed ≠ .matched) ∧
    (∀ (children : List Nat) (results : List MatchingState),
      combinationMatch children .unspecified results = false) := by
  refine ⟨?_, ?_, ?_, ?_, ?_, ?_⟩ <;>
    intros <;>
    simp [combinationMatch, List.all_eq_true, List.any_eq_true, List.headD]

/-- Witness for C4: concrete AND and NOT instances obtained from the
semantics theorem — two matched children make AND true, and a
not-computed child does not satisfy NOT. -/
theorem combinationMatch_semantics_witness :
    combinationMatch [0, 1] .and [.matched, .matched] = true ∧
      ¬ combinationMatch [0] .not [.notComputed] = true :=
  ⟨(combinationMatch_semantics.1 [0, 1] [.matched, .matched]).mpr (by decide),
    fun h => by
      have := (combinationMatch_semantics.2.2.1 0 [.notComputed]).mp h
      exact absurd this (by decide)⟩

/-! Lemmas about the field narrowing and the ANY/`matches_tuple` split. -/

theorem getStartEndStep_inv (targetField depth : Nat) (values : List FieldValue)
    (st : Option Nat × Nat × Bool) (i : Nat)
    (h : ∀ k, st.1 = some k → k < st.2.1 ∧ k < i) :
    ∀ k, (getStartEndStep targetField depth values st i).1 = some k →
      k < (getStartEndStep targetField depth values st i).2.1 ∧ k < i + 1 := by
  obtain ⟨os, ne, dn⟩ := st
  intro k hk
  by_cases hdn : dn
  · simp only [getStartEndStep, hdn, if_true] at hk ⊢
    exact ⟨(h k hk).1, by have := (h k hk).2; omega⟩
  · by_cases hpos : posAt values i depth = targetField
    · simp only [getStartEndStep, hdn, hpos, if_true, if_false, Bool.false_eq_true] at hk ⊢
      rcases os with _ | k0
      · simp only [Option.getD, Option.some.injEq] at hk
        omega
      · simp only [Option.getD, Option.some.injEq] at hk
        have := h k0 rfl
        omega
    · by_cases hgt : posAt values i depth > targetField
      · simp only [getStartEndStep, hdn, hpos, hgt, if_true, if_false,
          Bool.false_eq_true] at hk ⊢
        exact ⟨(h k hk).1, by have := (h k hk).2; omega⟩
      · simp only [getStartEndStep, hdn, hpos, hgt, if_true, if_false,
          Bool.false_eq_true] at hk ⊢
        exact ⟨(h k hk).1, by have := (h k hk).2; omega⟩

theorem getStartEndFold_inv (targetField depth : Nat) (values : List FieldValue) :
    ∀ (n a : Nat) (st : Option Nat × Nat × Bool),
      (∀ k, st.1 = some k → k < st.2.1 ∧ k < a) →
      ∀ k, ((List.range' a n).foldl (getStartEndStep targetField depth values) st).1
          = some k →
        k < ((List.range' a n).foldl (getStartEndStep targetField depth values) st).2.1
          ∧ k < a + n := by
  intro n
  induction n with
  | zero => intro a st h k hk; simpa using h k (by simpa using hk)
  | succ m ih =>
    intro a st h k hk
    rw [List.range'_succ] at hk ⊢
    simp only [List.foldl_cons] at hk ⊢
    have := ih (a + 1) _ (getStartEndStep_inv targetField depth values st a h) k hk
    exact ⟨this.1, by omega⟩

/-- If the narrowing found the field, the narrowed range is nonempty. -/
theorem getStartEndAtDepth_lt (targetField start end_ depth : Nat)
    (values : List FieldValue) (ns ne : Nat)
    (h : getStartEndAtDepth targetField start end_ depth values = (some ns, ne)) :
    ns < ne := by
  simp only [getStartEndAtDepth] at h
  have h1 := congrArg Prod.fst h
  have h2 := congrArg Prod.snd h
  simp only at h1 h2
  have := getStartEndFold_inv targetField depth values (end_ - start) start
    (none, end_, false) (by intro k hk; simp at hk) ns h1
  omega

theorem runEnd_cons (d : Nat) (values : List FieldValue) (p i e : Nat)
    (hi : i < e) (hne : posAt values i d ≠ p) :
    runEnd d values p i e = i := by
  unfold runEnd
  have hsplit : e - i = (e - (i + 1)) + 1 := by omega
  rw [hsplit, List.range'_succ]
  simp [List.find?_cons, hne]

theorem runEnd_cons_eq (d : Nat) (values : List FieldValue) (p i e : Nat)
    (hi : i < e) (heq : posAt values i d = p) :
    runEnd d values p i e = runEnd d values p (i + 1) e := by
  unfold runEnd
  have hsplit : e - i = (e - (i + 1)) + 1 := by omega
  rw [hsplit, List.range'_succ]
  simp [List.find?_cons, heq]

theorem posRuns_cons (d : Nat) (values : List FieldValue) (s e : Nat)
    (h : s < e) :
    posRuns d values s e =
      (s, runEnd d values (posAt values s d) (s + 1) e) ::
        posRuns d values (runEnd d values (posAt values s d) (s + 1) e) e := by
  rw [posRuns]
  simp [h]

theorem splitSubtreesAux_eq_posRuns (d : Nat) (values : List FieldValue) (e : Nat) :
    ∀ (fuel i start p : Nat), i ≤ e → fuel = e - i →
      splitSubtreesAux d values e fuel i start p =
        (start, runEnd d values p i e) ::
          posRuns d values (runEnd d values p i e) e := by
  intro fuel
  induction fuel with
  | zero =>
    intro i start p hle hfuel
    have : i = e := by omega
    subst this
    have hre : runEnd d values p i i = i := by simp [runEnd]
    rw [hre, posRuns]
    simp [splitSubtreesAux]
  | succ m ih =>
    intro i start p hle hfuel
    have hi : i < e := by omega
    by_cases hpos : posAt values i d = p
    · have hstep : splitSubtreesAux d values e (m + 1) i start p =
          splitSubtreesAux d values e m (i + 1) start p := by
        rw [splitSubtreesAux]
        simp [hi, hpos]
      rw [hstep, runEnd_cons_eq d values p i e hi hpos]
      exact ih (i + 1) start p (by omega) (by omega)
    · have hstep : splitSubtreesAux d values e (m + 1) i start p =
          (start, i) :: splitSubtreesAux d values e m (i + 1) i (posAt values i d) := by
        rw [splitSubtreesAux]
        simp [hi, hpos]
      rw [hstep, ih (i + 1) i (posAt values i d) (by omega) (by omega),
        runEnd_cons d values p i e hi hpos, posRuns_cons d values i e hi]

/-- The source's split loop produces exactly the maximal constant-position
blocks. -/
theorem splitSubtrees_eq_posRuns (d : Nat) (values : List FieldValue) (s e : Nat)
    (h : s < e) :
    splitSubtrees d values s e = posRuns d values s e := by
  unfold splitSubtrees
  rw [splitSubtreesAux_eq_posRuns d values e (e - s) s s (posAt values s d)
    (by omega) rfl]
  rw [runEnd_cons_eq d values (posAt values s d) s e h rfl]
  rw [posRuns_cons d values s e h]

theorem allSubMatchersMatch_iff (subs : FVMList) (values : List FieldValue)
    (rs re d : Nat) :
    allSubMatchersMatch subs values rs re d = true ↔
      ∀ sub ∈ subs.toList, matchesSimple sub values rs re d = true :=
  match subs with
  | .nil => by simp [allSubMatchersMatch, FVMList.toList]
  | .cons m rest => by
    rw [show FVMList.toList (.cons m rest) = m :: rest.toList from rfl]
    simp [allSubMatchersMatch, Bool.and_eq_true,
      allSubMatchersMatch_iff rest values rs re d]

theorem getStartEndAtDepth_of_empty (targetField start end_ depth : Nat)
    (values : List FieldValue) (h : end_ ≤ start) :
    getStartEndAtDepth targetField start end_ depth values = (none, end_) := by
  unfold getStartEndAtDepth
  have : end_ - start = 0 := by omega
  simp [this]

/-- C3: for a FieldValueMatcher with `Position::ANY` and a `matches_tuple`
value matcher, over a DFS-sorted event, the matcher matches iff some
single sub-range — one maximal block of values sharing a repeated-field
position at `depth+1` inside the narrowed range — satisfies all child
matchers of the tuple.  Child matchers satisfied only in different
sub-ranges therefore do not produce a match. -/
theorem anyWithMatchesTuple_iff_single_subrange
    (f : Nat) (subs : FVMList) (values : List FieldValue)
    (start end_ depth : Nat) (hdepth : depth ≤ 1)
    (hsorted : ∀ ns ne,
      getStartEndAtDepth f start end_ depth values = (some ns, ne) →
      nonDecreasingPos (depth + 1) values ns ne = true) :
    matchesSimple (.mk f (some .any) (.matchesTuple subs)) values start end_ depth
        = true ↔
      ∃ r ∈ (match getStartEndAtDepth f start end_ depth values with
             | (none, _) => ([] : List (Nat × Nat))
             | (some ns, ne) => posRuns (depth + 1) values ns ne),
        ∀ sub ∈ subs.toList, matchesSimple sub values r.1 r.2 (depth + 2) = true := by
  have hd3 : ¬ depth > 2 := by omega
  rcases hge : getStartEndAtDepth f start end_ depth values with ⟨ons, ne⟩
  cases ons with
  | none =>
    by_cases hse : start ≥ end_
    · rw [matchesSimple]
      simp [hd3, hse]
    · have hcr : computeRanges (.mk f (some .any) (.matchesTuple subs))
          values start end_ depth = ([], depth) := by
        simp [computeRanges, FieldValueMatcher.field, hge]
      rw [matchesSimple]
      simp [hd3, hse, hcr]
  | some ns =>
    have hlt : ns < ne := getStartEndAtDepth_lt f start end_ depth values ns ne hge
    have hse : ¬ start ≥ end_ := by
      intro hc
      rw [getStartEndAtDepth_of_empty f start end_ depth values hc] at hge
      simp at hge
    have hd13 : ¬ depth + 1 > 2 := by omega
    have hcr : computeRanges (.mk f (some .any) (.matchesTuple subs))
        values start end_ depth =
        (splitSubtrees (depth + 1) values ns ne, depth + 1) := by
      simp [computeRanges, FieldValueMatcher.field, FieldValueMatcher.position,
        FieldValueMatcher.valueMatcher, hge, hd13]
    have hsp : splitSubtrees (depth + 1) values ns ne =
        (ns, runEnd (depth + 1) values (posAt values ns (depth + 1)) (ns + 1) ne) ::
          posRuns (depth + 1) values
            (runEnd (depth + 1) values (posAt values ns (depth + 1)) (ns + 1) ne) ne := by
      rw [splitSubtrees_eq_posRuns (depth + 1) values ns ne hlt,
        posRuns_cons (depth + 1) values ns ne hlt]
    rw [matchesSimple]
    simp only [hd3, hse, if_false, ite_false, hcr, hsp]
    rw [posRuns_cons (depth + 1) values ns ne hlt]
    have h2 : depth + 1 + 1 = depth + 2 := rfl
    simp [List.any_eq_true, allSubMatchersMatch_iff, h2]

/-- Witness for C3, on spec §8 scenario 6: the event has attribution
nodes `(uid=10, tag="B")` and `(uid=11, tag="A")`; the ANY tuple matcher
`uid=10 AND tag="A"` does not match (its children hold only in different
sub-ranges), and the characterization theorem instantiates at this
input. -/
theorem anyWithMatchesTuple_iff_single_subrange_witness :
    matchesSimple (.mk 1 (some .any) (.matchesTuple demoSubMatchers))
        attributionValues 0 4 0 = false ∧
      (matchesSimple (.mk 1 (some .any) (.matchesTuple demoSubMatchers))
          attributionValues 0 4 0 = true ↔
        ∃ r ∈ (match getStartEndAtDepth 1 0 4 0 attributionValues with
               | (none, _) => ([] : List (Nat × Nat))
               | (some ns, ne) => posRuns (0 + 1) attributionValues ns ne),
          ∀ sub ∈ demoSubMatchers.toList,
            matchesSimple sub attributionValues r.1 r.2 (0 + 2) = true) := by
  constructor
  · decide
  · exact anyWithMatchesTuple_iff_single_subrange 1 demoSubMatchers attributionValues
      0 4 0 (by decide) (by
        intro ns ne h
        have hv : getStartEndAtDepth 1 0 4 0 attributionValues = (some 0, 4) := by decide
        rw [hv] at h
        simp only [Prod.mk.injEq, Option.some.injEq] at h
        obtain ⟨h1, h2⟩ := h
        subst h1
        subst h2
        decide)

/-! Configuration-diff theorems. -/

/-- C1: replacement cascades through dependencies — if a combination
matcher's definition is byte-identical between old and new configuration
but one of its children is REPLACE, the combination itself is marked
REPLACE. -/
theorem combinationChild_replace_forces_replace
    (oldConfig newConfig : List (Int × MatcherDef)) (op : LogicalOperation)
    (children : List Int) (id child : Int) (fuel : Nat)
    (hnew : lookupDef newConfig id = some (.combination op children))
    (hold : lookupDef oldConfig id = some (.combination op children))
    (hchild : child ∈ children)
    (hrep : determineMatcherUpdateStatus oldConfig newConfig fuel child
      = .updateReplace) :
    determineMatcherUpdateStatus oldConfig newConfig (fuel + 1) id
      = .updateReplace := by
  rw [determineMatcherUpdateStatus, hnew, hold]
  have hall : (children.all fun c =>
      decide (determineMatcherUpdateStatus oldConfig newConfig fuel c
        = .updatePreserve)) = false := by
    rw [List.all_eq_false]
    exact ⟨child, hchild, by simp [hrep]⟩
  simp [hall]

/-- Witness for C1 (`TestCombinationMatcherDepsChange`): matcher 2 changed
its atom id from 11 to 12, so with fuel 2 the unchanged OR combination 3
is REPLACE. -/
theorem combinationChild_replace_forces_replace_witness :
    determineMatcherUpdateStatus oldTestConfig newTestConfigDepsChange 2 3
      = .updateReplace :=
  combinationChild_replace_forces_replace oldTestConfig newTestConfigDepsChange
    .or [1, 2] 3 2 1 (by decide) (by decide) (by decide) (by decide)

/-- C2: preserve idempotence — diffing a configuration against an
installed graph with identical per-id definitions (in any list order)
marks every matcher PRESERVE, provided the combination graph is acyclic
(witnessed by a rank function) and closed under children. -/
theorem sameDefinitions_all_preserve
    (oldConfig newConfig : List (Int × MatcherDef)) (rank : Int → Nat)
    (hsame : ∀ id, lookupDef newConfig id = lookupDef oldConfig id)
    (hwf : ∀ id op children,
      lookupDef newConfig id = some (.combination op children) →
      ∀ child ∈ children, (lookupDef newConfig child).isSome ∧ rank child < rank id)
    (fuel : Nat) (id : Int) (hid : (lookupDef newConfig id).isSome)
    (hfuel : rank id < fuel) :
    determineMatcherUpdateStatus oldConfig newConfig fuel id = .updatePreserve := by
  induction fuel generalizing id with
  | zero => omega
  | succ m ih =>
    rcases hl : lookupDef newConfig id with _ | d
    · rw [hl] at hid
      simp at hid
    · have holdl : lookupDef oldConfig id = some d := by
        rw [← hsame id]
        exact hl
      rw [determineMatcherUpdateStatus, hl, holdl]
      cases d with
      | simple a => simp
      | combination op children =>
        have hall : (children.all fun c =>
            decide (determineMatcherUpdateStatus oldConfig newConfig m c
              = .updatePreserve)) = true := by
          rw [List.all_eq_true]
          intro c hc
          have h2 := hwf id op children hl c hc
          simp [ih c h2.1 (by omega)]
        simp [hall]

/-- Witness for C2 (`TestCombinationMatcherPreserve`): the same three
matchers in a different list order; the unchanged OR combination and both
unchanged simple children are all PRESERVE. -/
theorem sameDefinitions_all_preserve_witness :
    determineMatcherUpdateStatus oldTestConfig newTestConfigPreserve 2 3
        = .updatePreserve ∧
      determineMatcherUpdateStatus oldTestConfig newTestConfigPreserve 2 1
        = .updatePreserve ∧
      determineMatcherUpdateStatus oldTestConfig newTestConfigPreserve 2 2
        = .updatePreserve := by
  have hsame : ∀ id, lookupDef newTestConfigPreserve id = lookupDef oldTestConfig id := by
    intro id
    by_cases h2 : id = 2
    · subst h2; decide
    · by_cases h3 : id = 3
      · subst h3; decide
      · by_cases h1 : id = 1
        · subst h1; decide
        · simp [lookupDef, oldTestConfig, newTestConfigPreserve, h1, h2, h3]
  have hwf : ∀ id op children,
      lookupDef newTestConfigPreserve id = some (.combination op children) →
      ∀ child ∈ children, (lookupDef newTestConfigPreserve child).isSome ∧
        (if child = 3 then 1 else 0) < (if id = 3 then 1 else 0) := by
    intro id op children h
    by_cases h2 : id = 2
    · subst h2; simp [lookupDef, newTestConfigPreserve] at h
    · by_cases h3 : id = 3
      · subst h3
        simp only [lookupDef, newTestConfigPreserve] at h
        norm_num at h
        obtain ⟨hop, hch⟩ := h
        subst hch
        intro child hc
        rcases List.mem_pair.mp hc with rfl | rfl <;> exact ⟨by decide, by decide⟩
      · by_cases h1 : id = 1
        · subst h1; simp [lookupDef, newTestConfigPreserve] at h
        · simp [lookupDef, newTestConfigPreserve, h1, h2, h3] at h
  refine ⟨?_, ?_, ?_⟩ <;>
    exact sameDefinitions_all_preserve oldTestConfig newTestConfigPreserve
      (fun id => if id = 3 then 1 else 0) hsame hwf 2 _ (by decide) (by decide)

/-! State-tracker theorems. -/

theorem updateState_nested_none (y : Int) (hy : y ≠ kStateUnknown) :
    updateStateForPrimaryKey y true none = (some ⟨y, 1⟩, true) := by
  simp [updateStateForPrimaryKey, hy]

theorem updateState_nested_some (s c x : Int) (hs : s ≠ kStateUnknown)
    (hx : x ≠ kStateUnknown) :
    updateStateForPrimaryKey x true (some ⟨s, c⟩) =
      if s = x then (some ⟨s, c + 1⟩, false)
      else if c - 1 = 0 then (some ⟨x, 1⟩, true)
      else (some ⟨s, c - 1⟩, false) := by
  by_cases hxs : s = x
  · subst hxs
    simp [updateStateForPrimaryKey, hx]
  · by_cases hc : c - 1 = 0 <;>
      simp [updateStateForPrimaryKey, hx, hs, hxs, hc]

theorem nestedInv_step (A B : Int) (hA : A ≠ kStateUnknown)
    (hB : B ≠ kStateUnknown) (hAB : A ≠ B) (x : Int) (hx : x = A ∨ x = B)
    (entry : Option StateValueInfo) (d : Int) (h : NestedInv A B entry d) :
    NestedInv A B (updateStateForPrimaryKey x true entry).1
      (d + if x = A then 1 else -1) := by
  have hxu : x ≠ kStateUnknown := by
    rcases hx with hxa | hxb
    · rw [hxa]; exact hA
    · rw [hxb]; exact hB
  have hne : ¬ B = A := fun hcon => hAB hcon.symm
  rcases h with ⟨hent, hd⟩ | ⟨c, hent, hc, hd⟩ | ⟨c, hent, hc, hd⟩
  · rw [hent, updateState_nested_none x hxu]
    rcases hx with hxa | hxb
    · rw [hxa, if_pos (Eq.refl A)]
      exact Or.inr (Or.inl ⟨1, rfl, by omega, by omega⟩)
    · rw [hxb, if_neg hne]
      exact Or.inr (Or.inr ⟨1, rfl, by omega, by omega⟩)
  · rw [hent, updateState_nested_some A c x hA hxu]
    rcases hx with hxa | hxb
    · rw [hxa, if_pos (Eq.refl A), if_pos (Eq.refl A)]
      exact Or.inr (Or.inl ⟨c + 1, rfl, by omega, by omega⟩)
    · rw [hxb, if_neg hAB, if_neg hne]
      by_cases hc1 : c - 1 = 0
      · rw [if_pos hc1]
        exact Or.inr (Or.inr ⟨1, rfl, by omega, by omega⟩)
      · rw [if_neg hc1]
        exact Or.inr (Or.inl ⟨c - 1, rfl, by omega, by omega⟩)
  · rw [hent, updateState_nested_some B c x hB hxu]
    rcases hx with hxa | hxb
    · rw [hxa, if_neg hne, if_pos (Eq.refl A)]
      by_cases hc1 : c - 1 = 0
      · rw [if_pos hc1]
        exact Or.inr (Or.inl ⟨1, rfl, by omega, by omega⟩)
      · rw [if_neg hc1]
        exact Or.inr (Or.inr ⟨c - 1, rfl, by omega, by omega⟩)
    · rw [hxb, if_pos (Eq.refl B), if_neg hne]
      exact Or.inr (Or.inr ⟨c + 1, rfl, by omega, by omega⟩)

theorem nestedInv_fold (A B : Int) (hA : A ≠ kStateUnknown)
    (hB : B ≠ kStateUnknown) (hAB : A ≠ B) :
    ∀ (events : List Int) (entry : Option StateValueInfo) (d : Int),
      (∀ x ∈ events, x = A ∨ x = B) → NestedInv A B entry d →
      NestedInv A B
        (events.foldl (fun e x => (updateStateForPrimaryKey x true e).1) entry)
        (d + ((events.count A : Int) - events.count B)) := by
  intro events
  induction events with
  | nil => intro entry d _ h; simpa using h
  | cons x rest ih =>
    intro entry d hev h
    have hx : x = A ∨ x = B := hev x (by simp)
    have hrest : ∀ y ∈ rest, y = A ∨ y = B := fun y hy => hev y (by simp [hy])
    have hstep := nestedInv_step A B hA hB hAB x hx entry d h
    have := ih ((updateStateForPrimaryKey x true entry).1)
      (d + if x = A then 1 else -1) hrest hstep
    rw [List.foldl_cons]
    have harith :
        (d + if x = A then 1 else -1) +
            (((rest.count A : Int)) - rest.count B) =
          d + (((x :: rest).count A : Int) - (x :: rest).count B) := by
      rcases hx with hxa | hxb
      · rw [hxa]
        have hne : ¬ B = A := fun hcon => hAB hcon.symm
        simp [List.count_cons, hne]
        omega
      · rw [hxb]
        have hne : ¬ A = B := hAB
        have hne' : ¬ B = A := fun hcon => hAB hcon.symm
        simp [List.count_cons, hne, hne']
        omega
    rw [← harith]
    exact this

/-- C5: nested state updates on a tracked key — an equal state increments
the nested count without notifying; a different state decrements the
count and flips (to count 1, with notification) exactly when the count
reaches zero; a `kStateUnknown` state removes the entry; and over any
two-state event sequence the tracker ends on the strict-majority state,
which it holds iff the net running count toward that state is
positive. -/
theorem nestedStateUpdate_semantics :
    (∀ s c x : Int, s ≠ kStateUnknown → x = s →
      updateStateForPrimaryKey x true (some ⟨s, c⟩) = (some ⟨s, c + 1⟩, false)) ∧
    (∀ s c x : Int, s ≠ kStateUnknown → x ≠ kStateUnknown → x ≠ s → c - 1 ≠ 0 →
      updateStateForPrimaryKey x true (some ⟨s, c⟩) = (some ⟨s, c - 1⟩, false)) ∧
    (∀ s c x : Int, s ≠ kStateUnknown → x ≠ kStateUnknown → x ≠ s → c - 1 = 0 →
      updateStateForPrimaryKey x true (some ⟨s, c⟩) = (some ⟨x, 1⟩, true)) ∧
    (∀ entry : Option StateValueInfo,
      (updateStateForPrimaryKey kStateUnknown true entry).1 = none) ∧
    (∀ A B : Int, A ≠ kStateUnknown → B ≠ kStateUnknown → A ≠ B →
      ∀ events : List Int, (∀ x ∈ events, x = A ∨ x = B) →
        (((events.count B : Int) < events.count A →
          ∃ c, runNested events = some ⟨A, c⟩ ∧ 1 ≤ c) ∧
        ((events.count A : Int) < events.count B →
          ∃ c, runNested events = some ⟨B, c⟩ ∧ 1 ≤ c) ∧
        ((events.count A : Int) ≠ events.count B →
          ((∃ c, runNested events = some ⟨A, c⟩) ↔
            (events.count B : Int) < events.count A)))) := by
  refine ⟨?_, ?_, ?_, ?_, ?_⟩
  · intro s c x hs hxs
    rw [hxs, updateState_nested_some s c s hs hs, if_pos (Eq.refl s)]
  · intro s c x hs hx hxs hc
    rw [updateState_nested_some s c x hs hx]
    have hne : ¬ s = x := fun hcon => hxs hcon.symm
    simp [hne, hc]
  · intro s c x hs hx hxs hc
    rw [updateState_nested_some s c x hs hx]
    have hne : ¬ s = x := fun hcon => hxs hcon.symm
    simp [hne, hc]
  · intro entry
    simp [updateStateForPrimaryKey]
  · intro A B hA hB hAB events hev
    have hinv := nestedInv_fold A B hA hB hAB events none 0 hev (Or.inl ⟨rfl, rfl⟩)
    rw [show (0 : Int) + ((events.count A : Int) - events.count B) =
        ((events.count A : Int) - events.count B) from by omega] at hinv
    rw [show runNested events =
        events.foldl (fun e x => (updateStateForPrimaryKey x true e).1) none
      from rfl]
    refine ⟨?_, ?_, ?_⟩
    · intro hcount
      rcases hinv with ⟨hent, hd⟩ | ⟨c, hent, hc, hd⟩ | ⟨c, hent, hc, hd⟩
      · omega
      · exact ⟨c, hent, hc⟩
      · omega
    · intro hcount
      rcases hinv with ⟨hent, hd⟩ | ⟨c, hent, hc, hd⟩ | ⟨c, hent, hc, hd⟩
      · omega
      · omega
      · exact ⟨c, hent, hc⟩
    · intro hne
      constructor
      · rintro ⟨c, hrun⟩
        rcases hinv with ⟨hent, hd⟩ | ⟨c', hent, hc, hd⟩ | ⟨c', hent, hc, hd⟩
        · rw [hent] at hrun; simp at hrun
        · omega
        · rw [hent] at hrun
          simp only [Option.some.injEq, StateValueInfo.mk.injEq] at hrun
          exact absurd hrun.1.symm hAB
      · intro hcount
        rcases hinv with ⟨hent, hd⟩ | ⟨c', hent, hc, hd⟩ | ⟨c', hent, hc, hd⟩
        · omega
        · exact ⟨c', hent⟩
        · omega

/-- Witness for C5: an equal-state event on `(state=1, count=3)` bumps the
count without notifying, and over the sequence `[1, 2, 2]` the majority
state 2 wins the slot. -/
theorem nestedStateUpdate_semantics_witness :
    updateStateForPrimaryKey 1 true (some ⟨1, 3⟩) = (some ⟨1, 4⟩, false) ∧
      (∃ c, runNested [1, 2, 2] = some ⟨2, c⟩ ∧ 1 ≤ c) := by
  refine ⟨?_, ?_⟩
  · exact nestedStateUpdate_semantics.1 1 3 1 (by decide) rfl
  · exact (nestedStateUpdate_semantics.2.2.2.2 1 2 (by decide) (by decide)
      (by decide) [1, 2, 2] (by decide)).2.1 (by decide)

/-! Periodic-alarm theorems. -/

/-- The claim-side rule `claimNextAlarmSec` really is the least
`t_k = o + k·p` with `k ≥ 1` and `now ≤ t_k`. -/
theorem claimNextAlarmSec_least (o p now : Nat) (hp : 0 < p) :
    now ≤ claimNextAlarmSec o p now ∧
      (∃ k, 1 ≤ k ∧ claimNextAlarmSec o p now = o + k * p) ∧
      ∀ t, (∃ k, 1 ≤ k ∧ t = o + k * p) → now ≤ t →
        claimNextAlarmSec o p now ≤ t := by
  by_cases h : now ≤ o + p
  · refine ⟨by simp only [claimNextAlarmSec, if_pos h]; omega,
      ⟨1, le_refl 1, by simp [claimNextAlarmSec, if_pos h]⟩, ?_⟩
    rintro t ⟨k, hk, rfl⟩ _
    simp only [claimNextAlarmSec, if_pos h]
    have h5 : 1 * p ≤ k * p := Nat.mul_le_mul_right p hk
    omega
  · have ha : o + p < now := by omega
    have hq := Nat.div_add_mod (now - o + p - 1) p
    have hr := Nat.mod_lt (now - o + p - 1) hp
    have hqp : p * ((now - o + p - 1) / p) = now - o + p - 1 -
        (now - o + p - 1) % p := by omega
    have hge : now - o ≤ ((now - o + p - 1) / p) * p := by
      rw [Nat.mul_comm, hqp]
      omega
    have hlt : ((now - o + p - 1) / p) * p < now - o + p := by
      rw [Nat.mul_comm, hqp]
      omega
    refine ⟨by simp only [claimNextAlarmSec, if_neg h]; omega, ?_, ?_⟩
    · refine ⟨(now - o + p - 1) / p, ?_, by simp [claimNextAlarmSec, if_neg h]⟩
      rw [Nat.one_le_div_iff hp]
      omega
    · rintro t ⟨k, hk, rfl⟩ ht
      simp only [claimNextAlarmSec, if_neg h]
      have hkp : now - o ≤ k * p := by omega
      have hqk : (now - o + p - 1) / p ≤ k := by
        by_contra hc
        have hc2 : k + 1 ≤ (now - o + p - 1) / p := by omega
        have := Nat.mul_le_mul_right p hc2
        rw [Nat.add_mul, Nat.one_mul] at this
        omega
      have := Nat.mul_le_mul_right p hqk
      omega

/-- Counterexample for C6: for the spec's scenario-7 alarm
`(offset=10s, period=5000s)` updated at `now=2s`, the code's next fire
time is 10s, while the claim's rule — the smallest `t_k = o + k·p` with
`k ≥ 1` and `t_k ≥ now` — gives 5010s. -/
theorem findNextAlarmSec_before_offset_counterexample :
    findNextAlarmSec 10 5000 2 = 10 ∧ claimNextAlarmSec 10 5000 2 = 5010 ∧
      findNextAlarmSec 10 5000 2 ≠ claimNextAlarmSec 10 5000 2 := by
  decide

/-- C6 (amended): the next fire time is the smallest `t_k = o + k·p` with
`k ≥ 0` that is strictly greater than `now`; in particular, when `now` is
earlier than the offset the first fire is at `o` itself. -/
theorem findNextAlarmSec_least (o p now : Nat) (hp : 0 < p) :
    now < findNextAlarmSec o p now ∧
      (∃ k, findNextAlarmSec o p now = o + k * p) ∧
      ∀ t, (∃ k, t = o + k * p) → now < t → findNextAlarmSec o p now ≤ t := by
  by_cases h : now < o
  · refine ⟨by simp only [findNextAlarmSec, if_pos h]; omega,
      ⟨0, by simp [findNextAlarmSec, if_pos h]⟩, ?_⟩
    rintro t ⟨k, rfl⟩ _
    simp only [findNextAlarmSec, if_pos h]
    omega
  · have hkey : now - o < ((now - o) / p + 1) * p := by
      have h1 := Nat.div_add_mod (now - o) p
      have h2 := Nat.mod_lt (now - o) hp
      calc now - o = p * ((now - o) / p) + (now - o) % p := h1.symm
        _ < p * ((now - o) / p) + p := by omega
        _ = ((now - o) / p + 1) * p := by ring
    refine ⟨by simp only [findNextAlarmSec, if_neg h]; omega,
      ⟨(now - o) / p + 1, by simp only [findNextAlarmSec, if_neg h]⟩, ?_⟩
    rintro t ⟨k, rfl⟩ ht
    simp only [findNextAlarmSec, if_neg h]
    have hk : (now - o) / p < k := by
      rw [Nat.div_lt_iff_lt_mul hp]
      omega
    have := Nat.mul_le_mul_right p (show (now - o) / p + 1 ≤ k from hk)
    omega

/-- Witness for C6 (spec §8 scenario 7, second update): at `now=60s` the
alarm `(offset=10s, period=5000s)` next fires at 5010s, the least point
of the progression strictly after `now`. -/
theorem findNextAlarmSec_least_witness :
    findNextAlarmSec 10 5000 60 = 5010 ∧ (0 : Nat) < 5000 ∧
      (60 < findNextAlarmSec 10 5000 60 ∧
        (∃ k, findNextAlarmSec 10 5000 60 = 10 + k * 5000) ∧
        ∀ t, (∃ k, t = 10 + k * 5000) → 60 < t → findNextAlarmSec 10 5000 60 ≤ t) :=
  ⟨by decide, by decide, findNextAlarmSec_least 10 5000 60 (by decide)⟩

/-! Association-list lemmas for the UID-map model. -/

theorem alookup_aupdate_self {α β : Type} [DecidableEq α]
    (l : List (α × β)) (k : α) (v : β) :
    alookup (aupdate l k v) k = some v := by
  induction l with
  | nil => simp [aupdate, alookup]
  | cons kv rest ih =>
    obtain ⟨k0, d0⟩ := kv
    by_cases h : k = k0
    · simp [aupdate, alookup, h]
    · simp [aupdate, alookup, h, ih]

theorem alookup_aupdate_ne {α β : Type} [DecidableEq α]
    (l : List (α × β)) (k k' : α) (v : β) (h : k' ≠ k) :
    alookup (aupdate l k v) k' = alookup l k' := by
  induction l with
  | nil => simp [aupdate, alookup, h]
  | cons kv rest ih =>
    obtain ⟨k0, d0⟩ := kv
    by_cases h0 : k = k0
    · subst h0
      simp [aupdate, alookup, h]
    · by_cases h1 : k' = k0 <;> simp [aupdate, alookup, h0, h1, ih]

theorem aupdate_map_fst_of_isSome {α β : Type} [DecidableEq α]
    (l : List (α × β)) (k : α) (v : β) (h : (alookup l k).isSome) :
    (aupdate l k v).map Prod.fst = l.map Prod.fst := by
  induction l with
  | nil => simp [alookup] at h
  | cons kv rest ih =>
    obtain ⟨k0, d0⟩ := kv
    by_cases h0 : k = k0
    · subst h0
      simp [aupdate]
    · rw [alookup, if_neg h0] at h
      simp [aupdate, h0, ih h]

theorem alookup_append_left_none {α β : Type} [DecidableEq α]
    (l1 l2 : List (α × β)) (k : α) (h : alookup l1 k = none) :
    alookup (l1 ++ l2) k = alookup l2 k := by
  induction l1 with
  | nil => simp
  | cons kv rest ih =>
    obtain ⟨k0, d0⟩ := kv
    by_cases h0 : k = k0
    · rw [alookup, if_pos h0] at h
      simp at h
    · rw [alookup, if_neg h0] at h
      rw [List.cons_append, alookup, if_neg h0]
      exact ih h

theorem alookup_isSome_of_mem {α β : Type} [DecidableEq α]
    (l : List (α × β)) (k : α) (d : β) (hm : (k, d) ∈ l) :
    (alookup l k).isSome := by
  induction l with
  | nil => simp at hm
  | cons kv rest ih =>
    obtain ⟨k0, d0⟩ := kv
    by_cases h0 : k = k0
    · rw [alookup, if_pos h0]
      rfl
    · rw [alookup, if_neg h0]
      rcases List.mem_cons.mp hm with heq | hmem
      · exact absurd (congrArg Prod.fst heq) h0
      · exact ih hmem

theorem alookup_nodup_mem {α β : Type} [DecidableEq α]
    (l : List (α × β)) (k : α) (d d' : β)
    (hnodup : (l.map Prod.fst).Nodup) (hl : alookup l k = some d)
    (hm : (k, d') ∈ l) : d' = d := by
  induction l with
  | nil => simp at hm
  | cons kv rest ih =>
    obtain ⟨k0, d0⟩ := kv
    rw [List.map_cons, List.nodup_cons] at hnodup
    by_cases h0 : k = k0
    · subst h0
      rw [alookup, if_pos rfl] at hl
      rcases List.mem_cons.mp hm with heq | hmem
      · have h1 : d' = d0 := congrArg Prod.snd heq
        have h2 : d0 = d := by simpa using hl
        rw [h1, h2]
      · exact absurd (List.mem_map.mpr ⟨(k, d'), hmem, rfl⟩) hnodup.1
    · rw [alookup, if_neg h0] at hl
      rcases List.mem_cons.mp hm with heq | hmem
      · exact absurd (congrArg Prod.fst heq) h0
      · exact ih hnodup.2 hl hmem

/-! UID-map theorems. -/

/-- C10: a tombstoned entry is invisible to every public lookup while
still occupying the map — `hasApp` is false, `getAppVersion` is 0,
`getAppNamesFromUid` omits the package and `getAppUid` omits the uid. -/
theorem tombstoned_entries_invisible (st : UidMapState) (uid : Int)
    (pkg : String) (d : AppData) (hnodup : (st.mMap.map Prod.fst).Nodup)
    (hlook : alookup st.mMap (uid, pkg) = some d) (hdel : d.deleted = true) :
    hasApp st uid pkg = false ∧ getAppVersion st uid pkg = 0 ∧
      pkg ∉ getAppNamesFromUid st uid false ∧ uid ∉ getAppUid st pkg := by
  refine ⟨?_, ?_, ?_, ?_⟩
  · simp [hasApp, hlook, hdel]
  · simp [getAppVersion, hlook, hdel]
  · intro hmem
    simp only [getAppNamesFromUid, List.mem_map, List.mem_filter,
      Bool.and_eq_true, decide_eq_true_eq, Bool.not_eq_true',
      Bool.false_eq_true, ite_false, if_neg] at hmem
    obtain ⟨⟨⟨u0, p0⟩, d0⟩, ⟨hmem0, hu0, hd0⟩, hp0⟩ := hmem
    have h1 : u0 = uid := hu0
    have h2 : p0 = pkg := hp0
    have hk : ((uid, pkg), d0) ∈ st.mMap := by
      rw [show (uid, pkg) = (u0, p0) from by rw [h1, h2]]
      exact hmem0
    have hdd := alookup_nodup_mem st.mMap (uid, pkg) d d0 hnodup hlook hk
    have hd0' : d0.deleted = false := hd0
    rw [hdd, hdel] at hd0'
    cases hd0'
  · intro hmem
    simp only [getAppUid, List.mem_map, List.mem_filter, Bool.and_eq_true,
      beq_iff_eq, Bool.not_eq_true'] at hmem
    obtain ⟨⟨⟨u0, p0⟩, d0⟩, ⟨hmem0, hp0, hd0⟩, hu0⟩ := hmem
    have h1 : u0 = uid := hu0
    have h2 : p0 = pkg := hp0
    have hk : ((uid, pkg), d0) ∈ st.mMap := by
      rw [show (uid, pkg) = (u0, p0) from by rw [h1, h2]]
      exact hmem0
    have hdd := alookup_nodup_mem st.mMap (uid, pkg) d d0 hnodup hlook hk
    have hd0' : d0.deleted = false := hd0
    rw [hdd, hdel] at hd0'
    cases hd0'

/-- Witness for C10: in the concrete post-removal state, the tombstoned
`(5, "app")` entry is invisible to all four lookups. -/
theorem tombstoned_entries_invisible_witness :
    hasApp tombstonedState 5 "app" = false ∧
      getAppVersion tombstonedState 5 "app" = 0 ∧
      "app" ∉ getAppNamesFromUid tombstonedState 5 false ∧
      (5 : Int) ∉ getAppUid tombstonedState "app" :=
  tombstoned_entries_invisible tombstonedState 5 "app"
    ⟨1, "v1", "inst", "", true⟩ (by decide) (by decide) rfl

/-- Counterexample for C7: after an install and a removal the entry for
`(5, "app")` is tombstoned (not live), yet a re-install still notifies
`notifyAppUpgrade` — the source notifies whenever the key existed,
deliberately including re-installs after deletion. -/
theorem updateApp_notifies_after_tombstone :
    (alookup tombstonedState.mMap (5, "app")).map AppData.deleted = some true ∧
      (updateApp 100 1000 30 "app" 5 2 "v2" "inst" "" tombstonedState).2 = true := by
  decide

/-- C7 (amended): `updateApp` upserts the entry for `(uid, name)` with
the new data and a cleared tombstone, and notifies `notifyAppUpgrade` iff
the key already existed in the map — live or tombstoned; a fresh key
produces no notification. -/
theorem updateApp_upsert_and_notify (kBytes limit : Nat) (timestamp : Int)
    (appName : String) (uid : Int) (versionCode : Int)
    (versionString installer certificateHash : String) (st : UidMapState) :
    alookup (updateApp kBytes limit timestamp appName uid versionCode
        versionString installer certificateHash st).1.mMap (uid, appName) =
      some ⟨versionCode, versionString, installer, certificateHash, false⟩ ∧
      (updateApp kBytes limit timestamp appName uid versionCode versionString
        installer certificateHash st).2 = (alookup st.mMap (uid, appName)).isSome := by
  unfold updateApp
  simp [alookup_aupdate_self]

/-- Witness for C7 (amended): re-installing over the tombstoned entry
upserts the new data and notifies, because the key existed. -/
theorem updateApp_upsert_and_notify_witness :
    alookup (updateApp 100 1000 30 "app" 5 2 "v2" "inst" ""
        tombstonedState).1.mMap (5, "app") =
      some ⟨2, "v2", "inst", "", false⟩ ∧
      (updateApp 100 1000 30 "app" 5 2 "v2" "inst" "" tombstonedState).2 =
        (alookup tombstonedState.mMap (5, "app")).isSome :=
  updateApp_upsert_and_notify 100 1000 30 "app" 5 2 "v2" "inst" "" tombstonedState

theorem ensure_inv (kBytes limit : Nat) :
    ∀ (changes : List ChangeRecord) (bytes : Nat),
      bytes = kBytes * changes.length →
      (ensureBytesUsedBelowLimit kBytes limit changes bytes).2 =
          kBytes * (ensureBytesUsedBelowLimit kBytes limit changes bytes).1.length ∧
        (ensureBytesUsedBelowLimit kBytes limit changes bytes).2 ≤ limit := by
  intro changes
  induction changes with
  | nil =>
    intro bytes hb
    simp at hb
    rw [ensureBytesUsedBelowLimit]
    simp [hb]
  | cons r rest ih =>
    intro bytes hb
    rw [ensureBytesUsedBelowLimit]
    by_cases h : bytes > limit
    · simp only [h, if_true, ite_true]
      have hb' : bytes - kBytes = kBytes * rest.length := by
        rw [List.length_cons, Nat.mul_add, Nat.mul_one] at hb
        omega
      exact ih (bytes - kBytes) hb'
    · simp only [h, if_false, ite_false]
      exact ⟨hb, by omega⟩

theorem length_filter_not_add {α : Type} (p : α → Bool) (l : List α) :
    (l.filter fun a => !(p a)).length + (l.filter p).length = l.length := by
  induction l with
  | nil => simp
  | cons a l ih =>
    by_cases h : p a <;> simp [List.filter_cons, h] <;> omega

theorem bytes_after_prune (kBytes : Nat) (l : List ChangeRecord)
    (p : ChangeRecord → Bool) (bytes : Nat) (h : bytes = kBytes * l.length) :
    bytes - kBytes * (l.filter p).length =
        kBytes * (l.filter fun r => !(p r)).length ∧
      bytes - kBytes * (l.filter p).length ≤ bytes := by
  have hpart := length_filter_not_add p l
  rw [← hpart, Nat.mul_add] at h
  exact ⟨by omega, by omega⟩

/-- C8: the byte-budget guardrail is an invariant — with the byte counter
accounting exactly `kBytes` per change record, every completed operation
(`updateApp`, `removeApp`, `updateMap`, `appendUidMap`, `clearOutput`)
leaves `bytes_used ≤ limit`, evicting oldest change records whenever an
operation pushes past the limit. -/
theorem uidMap_byte_budget :
    (∀ (kBytes limit : Nat) (timestamp : Int) (appName : String) (uid : Int)
        (versionCode : Int) (versionString installer certificateHash : String)
        (st : UidMapState), BytesInv kBytes limit st →
      BytesInv kBytes limit (updateApp kBytes limit timestamp appName uid
        versionCode versionString installer certificateHash st).1) ∧
    (∀ (kBytes limit kMaxDeleted : Nat) (timestamp : Int) (app : String)
        (uid : Int) (st : UidMapState), BytesInv kBytes limit st →
      BytesInv kBytes limit
        (removeApp kBytes limit kMaxDeleted timestamp app uid st).1) ∧
    (∀ (kBytes limit : Nat) (uidData : List AppInfo) (st : UidMapState),
      BytesInv kBytes limit st →
      BytesInv kBytes limit (updateMap kBytes limit uidData st)) ∧
    (∀ (kBytes limit : Nat) (timestamp : Int) (key : Nat) (st : UidMapState),
      BytesInv kBytes limit st →
      BytesInv kBytes limit (appendUidMap kBytes timestamp key st).2) ∧
    (∀ (kBytes limit : Nat) (st : UidMapState), BytesInv kBytes limit st →
      BytesInv kBytes limit (clearOutput st)) := by
  refine ⟨?_, ?_, ?_, ?_, ?_⟩
  · intro kBytes limit timestamp appName uid versionCode versionString installer
      certificateHash st hinv
    obtain ⟨h1, _⟩ := hinv
    have hlen : ∀ change : ChangeRecord, st.mBytesUsed + kBytes =
        kBytes * (st.mChanges ++ [change]).length := by
      intro change
      rw [List.length_append, List.length_cons, List.length_nil,
        Nat.mul_add, Nat.mul_one]
      omega
    unfold updateApp BytesInv
    dsimp only
    exact ensure_inv kBytes limit _ _ (hlen _)
  · intro kBytes limit kMaxDeleted timestamp app uid st hinv
    obtain ⟨h1, _⟩ := hinv
    have hlen : ∀ change : ChangeRecord, st.mBytesUsed + kBytes =
        kBytes * (st.mChanges ++ [change]).length := by
      intro change
      rw [List.length_append, List.length_cons, List.length_nil,
        Nat.mul_add, Nat.mul_one]
      omega
    unfold removeApp BytesInv
    dsimp only
    exact ensure_inv kBytes limit _ _ (hlen _)
  · intro kBytes limit uidData st hinv
    obtain ⟨h1, _⟩ := hinv
    unfold updateMap BytesInv
    dsimp only
    exact ensure_inv kBytes limit _ _ h1
  · intro kBytes limit timestamp key st hinv
    obtain ⟨h1, h2⟩ := hinv
    unfold appendUidMap BytesInv
    split <;> (dsimp only; split)
    all_goals
      first
        | exact ⟨h1, h2⟩
        | exact ⟨(bytes_after_prune kBytes st.mChanges _ st.mBytesUsed h1).1,
            le_trans (bytes_after_prune kBytes st.mChanges _ st.mBytesUsed h1).2 h2⟩
  · intro kBytes limit st _
    unfold clearOutput BytesInv
    simp

/-- Witness for C8: two installs at 100 bytes per record against a
150-byte limit force eviction of the oldest record, landing back within
budget. -/
theorem uidMap_byte_budget_witness :
    BytesInv 100 150 ((updateApp 100 150 11 "b" 6 1 "v" "i" ""
      ((updateApp 100 150 10 "app" 5 1 "v1" "inst" "" emptyUidMapState).1)).1) :=
  uidMap_byte_budget.1 100 150 11 "b" 6 1 "v" "i" ""
    ((updateApp 100 150 10 "app" 5 1 "v1" "inst" "" emptyUidMapState).1)
    (by constructor <;> decide)

/-! High-water-mark lemmas (C9). -/

theorem alookup_mem {α β : Type} [DecidableEq α]
    (l : List (α × β)) (k : α) (v : β) (h : alookup l k = some v) :
    (k, v) ∈ l := by
  induction l with
  | nil => simp [alookup] at h
  | cons kv rest ih =>
    obtain ⟨k0, d0⟩ := kv
    by_cases h0 : k = k0
    · rw [alookup, if_pos h0] at h
      subst h0
      simp only [Option.some.injEq] at h
      subst h
      simp
    · rw [alookup, if_neg h0] at h
      exact List.mem_cons_of_mem _ (ih h)

theorem alookup_isSome_of_mem_fst {α β : Type} [DecidableEq α]
    (l : List (α × β)) (k : α) (h : k ∈ l.map Prod.fst) :
    (alookup l k).isSome := by
  rw [List.mem_map] at h
  obtain ⟨⟨k0, v0⟩, hmem, hk⟩ := h
  have : k0 = k := hk
  subst this
  exact alookup_isSome_of_mem l k0 v0 hmem

theorem minFold_pos_spec :
    ∀ (l : List (Nat × Int)) (m : Int), 0 < m → (∀ kv ∈ l, 0 < kv.2) →
      (l.foldl minFold m = m ∨ l.foldl minFold m ∈ l.map Prod.snd) ∧
        l.foldl minFold m ≤ m ∧ (∀ kv ∈ l, l.foldl minFold m ≤ kv.2) ∧
        0 < l.foldl minFold m := by
  intro l
  induction l with
  | nil =>
    intro m hm _
    exact ⟨Or.inl rfl, le_refl m, by simp, hm⟩
  | cons kv rest ih =>
    intro m hm hpos
    have hkv : 0 < kv.2 := hpos kv (by simp)
    have hm' : 0 < minFold m kv := by
      unfold minFold
      split_ifs <;> omega
    have hmm : minFold m kv = kv.2 ∨ minFold m kv = m := by
      unfold minFold
      split_ifs <;> simp
    have hle1 : minFold m kv ≤ m := by
      unfold minFold
      split_ifs <;> omega
    have hle2 : minFold m kv ≤ kv.2 := by
      unfold minFold
      split_ifs <;> omega
    obtain ⟨hmem, hle, hall, hpos'⟩ :=
      ih (minFold m kv) hm' (fun kv2 h2 => hpos kv2 (by simp [h2]))
    rw [List.foldl_cons]
    refine ⟨?_, le_trans hle hle1, ?_, hpos'⟩
    · rcases hmem with he | hin
      · rcases hmm with h | h
        · right
          rw [he, h]
          simp
        · left
          rw [he, h]
      · right
        simp only [List.map_cons, List.mem_cons]
        right
        exact hin
    · intro kv2 h2
      rcases List.mem_cons.mp h2 with heq | h2'
      · rw [heq]
        exact le_trans hle hle2
      · exact hall kv2 h2'

theorem getMin_spec (marks : List (Nat × Int)) (hne : marks ≠ [])
    (hpos : ∀ kv ∈ marks, 0 < kv.2) :
    getMinimumTimestampNs marks ∈ marks.map Prod.snd ∧
      ∀ kv ∈ marks, getMinimumTimestampNs marks ≤ kv.2 := by
  obtain ⟨kv0, rest, rfl⟩ := List.exists_cons_of_ne_nil hne
  unfold getMinimumTimestampNs
  rw [List.foldl_cons]
  have h0 : minFold 0 kv0 = kv0.2 := by
    unfold minFold
    simp
  rw [h0]
  have hkv0 : 0 < kv0.2 := hpos kv0 (by simp)
  obtain ⟨hmem, hle, hall, _⟩ :=
    minFold_pos_spec rest kv0.2 hkv0 (fun kv h => hpos kv (by simp [h]))
  refine ⟨?_, ?_⟩
  · rcases hmem with he | hin
    · rw [he]
      simp
    · simp only [List.map_cons, List.mem_cons]
      right
      exact hin
  · intro kv h
    rcases List.mem_cons.mp h with heq | h'
    · rw [heq]
      exact hle
    · exact hall kv h'

theorem appendUidMap_marks (kBytes : Nat) (t : Int) (k : Nat) (s : UidMapState)
    (hk : (alookup s.mLastUpdatePerConfigKey k).isSome = true) :
    (appendUidMap kBytes t k s).2.mLastUpdatePerConfigKey =
      aupdate s.mLastUpdatePerConfigKey k t := by
  unfold appendUidMap
  rw [if_pos hk]
  dsimp only
  split <;> rfl

theorem appendUidMap_prune (kBytes : Nat) (t : Int) (k : Nat) (s : UidMapState)
    (hk : (alookup s.mLastUpdatePerConfigKey k).isSome = true)
    (hgt : getMinimumTimestampNs (aupdate s.mLastUpdatePerConfigKey k t) >
      getMinimumTimestampNs s.mLastUpdatePerConfigKey) :
    (appendUidMap kBytes t k s).2.mChanges =
      s.mChanges.filter fun r => !decide (r.timestampNs <
        getMinimumTimestampNs (aupdate s.mLastUpdatePerConfigKey k t)) := by
  unfold appendUidMap
  rw [if_pos hk]
  dsimp only
  rw [if_pos hgt]

theorem appendUidMap_emits (kBytes : Nat) (timestamp : Int) (key : Nat)
    (st : UidMapState) :
    (appendUidMap kBytes timestamp key st).1 =
        (st.mChanges.filter fun r =>
          decide (r.timestampNs > (alookup st.mLastUpdatePerConfigKey key).getD 0)) ∧
      alookup (appendUidMap kBytes timestamp key st).2.mLastUpdatePerConfigKey key
        = some timestamp := by
  unfold appendUidMap
  by_cases hk : (alookup st.mLastUpdatePerConfigKey key).isSome = true
  · rw [if_pos hk]
    dsimp only
    constructor
    · split <;> rfl
    · split <;> exact alookup_aupdate_self _ key timestamp
  · rw [if_neg hk]
    have habs : alookup st.mLastUpdatePerConfigKey key = none := by
      rcases hres : alookup st.mLastUpdatePerConfigKey key with _ | v
      · rfl
      · rw [hres] at hk
        simp at hk
    have happ : alookup (st.mLastUpdatePerConfigKey ++ [(key, 0)]) key
        = some (0 : Int) := by
      rw [alookup_append_left_none _ _ _ habs]
      simp [alookup]
    have hlm : (alookup (st.mLastUpdatePerConfigKey ++ [(key, 0)]) key).getD 0 =
        (alookup st.mLastUpdatePerConfigKey key).getD 0 := by
      rw [happ, habs]
      rfl
    dsimp only
    rw [hlm]
    constructor
    · split <;> rfl
    · split <;> exact alookup_aupdate_self _ key timestamp


theorem appendRound_marks (kBytes : Nat) :
    ∀ (calls : List (Nat × Int)) (s : UidMapState),
      (∀ c ∈ calls, (alookup s.mLastUpdatePerConfigKey c.1).isSome = true) →
      (calls.map Prod.fst).Nodup →
      ((appendRound kBytes calls s).mLastUpdatePerConfigKey.map Prod.fst =
          s.mLastUpdatePerConfigKey.map Prod.fst) ∧
        (∀ c ∈ calls,
          alookup (appendRound kBytes calls s).mLastUpdatePerConfigKey c.1
            = some c.2) ∧
        (∀ k', k' ∉ calls.map Prod.fst →
          alookup (appendRound kBytes calls s).mLastUpdatePerConfigKey k' =
            alookup s.mLastUpdatePerConfigKey k') := by
  intro calls
  induction calls with
  | nil =>
    intro s _ _
    exact ⟨rfl, by simp, fun k' _ => rfl⟩
  | cons c cs ih =>
    intro s hpresent hnodup
    obtain ⟨k, tk⟩ := c
    have hk := hpresent (k, tk) (by simp)
    have hstep : (appendUidMap kBytes tk k s).2.mLastUpdatePerConfigKey =
        aupdate s.mLastUpdatePerConfigKey k tk :=
      appendUidMap_marks kBytes tk k s hk
    rw [List.map_cons, List.nodup_cons] at hnodup
    have hround : appendRound kBytes ((k, tk) :: cs) s =
        appendRound kBytes cs (appendUidMap kBytes tk k s).2 := by
      unfold appendRound
      rw [List.foldl_cons]
    have hpresent' : ∀ c2 ∈ cs,
        (alookup (appendUidMap kBytes tk k s).2.mLastUpdatePerConfigKey
          c2.1).isSome = true := by
      intro c2 h2
      rw [hstep]
      by_cases hkk : c2.1 = k
      · rw [hkk, alookup_aupdate_self]
        rfl
      · rw [alookup_aupdate_ne _ _ _ _ hkk]
        exact hpresent c2 (by simp [h2])
    obtain ⟨hfst, hset, hpres⟩ :=
      ih (appendUidMap kBytes tk k s).2 hpresent' hnodup.2
    rw [hround]
    refine ⟨?_, ?_, ?_⟩
    · rw [hfst, hstep, aupdate_map_fst_of_isSome _ _ _ hk]
    · intro c2 hc2
      rcases List.mem_cons.mp hc2 with heq | h2
      · rw [heq]
        have hgoal := hpres k hnodup.1
        rw [hstep] at hgoal
        rw [show ((k, tk) : Nat × Int).1 = k from rfl, hgoal]
        exact alookup_aupdate_self _ k tk
      · exact hset c2 h2
    · intro k' hk'
      have hk'ks : k' ∉ cs.map Prod.fst := fun hc => hk' (by simp [hc])
      have hk'k : k' ≠ k := fun hc => hk' (by simp [hc])
      rw [hpres k' hk'ks, hstep, alookup_aupdate_ne _ _ _ _ hk'k]

theorem appendRound_prunes (kBytes : Nat) (st : UidMapState)
    (calls : List (Nat × Int))
    (hkeys : st.mLastUpdatePerConfigKey.map Prod.fst = calls.map Prod.fst)
    (hne : calls ≠ []) (hnodup : (calls.map Prod.fst).Nodup)
    (hpos : ∀ kv ∈ st.mLastUpdatePerConfigKey, 0 < kv.2)
    (hfresh : ∀ c ∈ calls, ∀ kv ∈ st.mLastUpdatePerConfigKey, kv.2 < c.2) :
    ∀ r ∈ (appendRound kBytes calls st).mChanges,
      ¬ r.timestampNs <
        getMinimumTimestampNs
          (appendRound kBytes calls st).mLastUpdatePerConfigKey := by
  rcases List.eq_nil_or_concat calls with rfl | ⟨initCalls, clast, hconcat⟩
  · exact absurd rfl hne
  obtain ⟨klast, tlast⟩ := clast
  rw [List.concat_eq_append] at hconcat
  subst hconcat
  have hsplit : appendRound kBytes (initCalls ++ [(klast, tlast)]) st =
      (appendUidMap kBytes tlast klast (appendRound kBytes initCalls st)).2 := by
    unfold appendRound
    rw [List.foldl_append, List.foldl_cons, List.foldl_nil]
  have hkeys' : st.mLastUpdatePerConfigKey.map Prod.fst =
      initCalls.map Prod.fst ++ [klast] := by
    simpa using hkeys
  have hnodup' : (initCalls.map Prod.fst ++ [klast]).Nodup := by
    simpa using hnodup
  rw [List.nodup_append] at hnodup'
  have hklastinit : klast ∉ initCalls.map Prod.fst := by
    intro hc
    exact hnodup'.2.2 hc (by simp)
  have hinitpresent : ∀ c ∈ initCalls,
      (alookup st.mLastUpdatePerConfigKey c.1).isSome = true := by
    intro c hc
    refine alookup_isSome_of_mem_fst _ _ ?_
    rw [hkeys']
    exact List.mem_append_left _ (List.mem_map.mpr ⟨c, hc, rfl⟩)
  obtain ⟨hfst, hset, hpres⟩ :=
    appendRound_marks kBytes initCalls st hinitpresent hnodup'.1
  have hklastkeys : klast ∈ st.mLastUpdatePerConfigKey.map Prod.fst := by
    rw [hkeys']
    simp
  obtain ⟨vlast, hvlast⟩ :
      ∃ v, alookup st.mLastUpdatePerConfigKey klast = some v := by
    rcases hres : alookup st.mLastUpdatePerConfigKey klast with _ | v
    · have habs := alookup_isSome_of_mem_fst _ _ hklastkeys
      rw [hres] at habs
      simp at habs
    · exact ⟨v, rfl⟩
  have hvmem : (klast, vlast) ∈ st.mLastUpdatePerConfigKey :=
    alookup_mem _ _ _ hvlast
  have hvpos : (0 : Int) < vlast := hpos (klast, vlast) hvmem
  have hvlt : ∀ c ∈ initCalls ++ [(klast, tlast)], vlast < c.2 :=
    fun c hc => hfresh c hc (klast, vlast) hvmem
  have hnodupRound :
      ((appendRound kBytes initCalls st).mLastUpdatePerConfigKey.map
        Prod.fst).Nodup := by
    rw [hfst, hkeys', List.nodup_append]
    exact hnodup'
  have hlookS : alookup
      (appendRound kBytes initCalls st).mLastUpdatePerConfigKey klast
      = some vlast := by
    rw [hpres klast hklastinit]
    exact hvlast
  have hsvals : ∀ kv ∈ (appendRound kBytes initCalls st).mLastUpdatePerConfigKey,
      kv.2 = vlast ∨ ∃ c ∈ initCalls ++ [(klast, tlast)], kv.2 = c.2 := by
    intro kv hkv
    have hfstmem : kv.1 ∈ initCalls.map Prod.fst ++ [klast] := by
      rw [← hkeys', ← hfst]
      exact List.mem_map.mpr ⟨kv, hkv, rfl⟩
    rcases List.mem_append.mp hfstmem with hin | hlast
    · right
      obtain ⟨c, hc, hcfst⟩ := List.mem_map.mp hin
      have hl := hset c hc
      rw [hcfst] at hl
      have := alookup_nodup_mem _ kv.1 c.2 kv.2 hnodupRound hl
        (by rw [show (kv.1, kv.2) = kv from rfl]; exact hkv)
      exact ⟨c, List.mem_append_left _ hc, this⟩
    · left
      have hkl : kv.1 = klast := by simpa using hlast
      have hl : alookup
          (appendRound kBytes initCalls st).mLastUpdatePerConfigKey kv.1
          = some vlast := by
        rw [hkl]
        exact hlookS
      exact alookup_nodup_mem _ kv.1 vlast kv.2 hnodupRound hl
        (by rw [show (kv.1, kv.2) = kv from rfl]; exact hkv)
  have hspos : ∀ kv ∈ (appendRound kBytes initCalls st).mLastUpdatePerConfigKey,
      0 < kv.2 := by
    intro kv hkv
    rcases hsvals kv hkv with h | ⟨c, hc, h⟩
    · omega
    · have := hvlt c hc
      omega
  have hsne : (appendRound kBytes initCalls st).mLastUpdatePerConfigKey ≠ [] := by
    intro hc
    have hmapnil : st.mLastUpdatePerConfigKey.map Prod.fst = [] := by
      rw [← hfst, hc]
      rfl
    rw [hkeys'] at hmapnil
    simp at hmapnil
  have hklastpresent : (alookup
      (appendRound kBytes initCalls st).mLastUpdatePerConfigKey klast).isSome
        = true := by
    rw [hlookS]
    rfl
  have hprevle := (getMin_spec _ hsne hspos).2 (klast, vlast)
    (alookup_mem _ _ _ hlookS)
  -- the updated marks all carry a call time, each above the stale mark
  have hfst2 : (aupdate
      (appendRound kBytes initCalls st).mLastUpdatePerConfigKey klast
      tlast).map Prod.fst =
      (appendRound kBytes initCalls st).mLastUpdatePerConfigKey.map Prod.fst :=
    aupdate_map_fst_of_isSome _ _ _ hklastpresent
  have hnodup2 : ((aupdate
      (appendRound kBytes initCalls st).mLastUpdatePerConfigKey klast
      tlast).map Prod.fst).Nodup := by
    rw [hfst2]
    exact hnodupRound
  have hm2vals : ∀ kv ∈ aupdate
      (appendRound kBytes initCalls st).mLastUpdatePerConfigKey klast tlast,
      ∃ c ∈ initCalls ++ [(klast, tlast)], kv.2 = c.2 := by
    intro kv hkv
    have hfstmem : kv.1 ∈ initCalls.map Prod.fst ++ [klast] := by
      rw [← hkeys', ← hfst, ← hfst2]
      exact List.mem_map.mpr ⟨kv, hkv, rfl⟩
    rcases List.mem_append.mp hfstmem with hin | hlast
    · obtain ⟨c, hc, hcfst⟩ := List.mem_map.mp hin
      have hne2 : kv.1 ≠ klast := by
        rw [← hcfst]
        intro hc2
        exact hklastinit (hc2 ▸ List.mem_map.mpr ⟨c, hc, rfl⟩)
      have hl : alookup (aupdate
          (appendRound kBytes initCalls st).mLastUpdatePerConfigKey klast tlast)
          kv.1 = some c.2 := by
        rw [alookup_aupdate_ne _ _ _ _ hne2]
        have hl0 := hset c hc
        rw [hcfst] at hl0
        exact hl0
      have := alookup_nodup_mem _ kv.1 c.2 kv.2 hnodup2 hl
        (by rw [show (kv.1, kv.2) = kv from rfl]; exact hkv)
      exact ⟨c, List.mem_append_left _ hc, this⟩
    · have hkl : kv.1 = klast := by simpa using hlast
      have hl : alookup (aupdate
          (appendRound kBytes initCalls st).mLastUpdatePerConfigKey klast tlast)
          kv.1 = some tlast := by
        rw [hkl]
        exact alookup_aupdate_self _ _ _
      have := alookup_nodup_mem _ kv.1 tlast kv.2 hnodup2 hl
        (by rw [show (kv.1, kv.2) = kv from rfl]; exact hkv)
      exact ⟨(klast, tlast), List.mem_append_right _ (by simp), this⟩
  have hm2pos : ∀ kv ∈ aupdate
      (appendRound kBytes initCalls st).mLastUpdatePerConfigKey klast tlast,
      0 < kv.2 := by
    intro kv hkv
    obtain ⟨c, hc, h⟩ := hm2vals kv hkv
    have := hvlt c hc
    omega
  have hm2ne : aupdate
      (appendRound kBytes initCalls st).mLastUpdatePerConfigKey klast tlast
      ≠ [] := by
    intro hc
    have habs := alookup_aupdate_self
      (appendRound kBytes initCalls st).mLastUpdatePerConfigKey klast tlast
    rw [hc] at habs
    simp [alookup] at habs
  have hnewgt : vlast < getMinimumTimestampNs (aupdate
      (appendRound kBytes initCalls st).mLastUpdatePerConfigKey klast tlast) := by
    have hmem := (getMin_spec _ hm2ne hm2pos).1
    rw [List.mem_map] at hmem
    obtain ⟨kv, hkv, hv⟩ := hmem
    obtain ⟨c, hc, h⟩ := hm2vals kv hkv
    rw [← hv, h]
    exact hvlt c hc
  have hgt : getMinimumTimestampNs (aupdate
      (appendRound kBytes initCalls st).mLastUpdatePerConfigKey klast tlast) >
      getMinimumTimestampNs
        (appendRound kBytes initCalls st).mLastUpdatePerConfigKey := by
    omega
  have hchanges := appendUidMap_prune kBytes tlast klast
    (appendRound kBytes initCalls st) hklastpresent hgt
  have hmarksfinal := appendUidMap_marks kBytes tlast klast
    (appendRound kBytes initCalls st) hklastpresent
  intro r hr
  rw [hsplit, hmarksfinal]
  rw [hsplit, hchanges] at hr
  have hkept := List.of_mem_filter hr
  simp only [Bool.not_eq_true', decide_eq_false_iff_not] at hkept
  exact hkept

/-- C9: `appendUidMap` emits exactly the change records strictly newer
than the config's high-water mark and advances that mark to the given
timestamp; and after a report round that calls `appendUidMap` once for
every registered config, each call at a time later than every mark held
when the round began, no change record older than the minimum per-config
high-water mark survives in the change log. -/
theorem appendUidMap_highWater :
    (∀ (kBytes : Nat) (timestamp : Int) (key : Nat) (st : UidMapState),
      (appendUidMap kBytes timestamp key st).1 =
          (st.mChanges.filter fun r =>
            decide (r.timestampNs >
              (alookup st.mLastUpdatePerConfigKey key).getD 0)) ∧
        alookup (appendUidMap kBytes timestamp key st).2.mLastUpdatePerConfigKey
          key = some timestamp) ∧
    (∀ (kBytes : Nat) (st : UidMapState) (calls : List (Nat × Int)),
      st.mLastUpdatePerConfigKey.map Prod.fst = calls.map Prod.fst →
      calls ≠ [] → (calls.map Prod.fst).Nodup →
      (∀ kv ∈ st.mLastUpdatePerConfigKey, 0 < kv.2) →
      (∀ c ∈ calls, ∀ kv ∈ st.mLastUpdatePerConfigKey, kv.2 < c.2) →
      ∀ r ∈ (appendRound kBytes calls st).mChanges,
        ¬ r.timestampNs <
          getMinimumTimestampNs
            (appendRound kBytes calls st).mLastUpdatePerConfigKey) :=
  ⟨fun kBytes timestamp key st => appendUidMap_emits kBytes timestamp key st,
    fun kBytes st calls h1 h2 h3 h4 h5 =>
      appendRound_prunes kBytes st calls h1 h2 h3 h4 h5⟩

/-- Witness for C9: a round dumping config 1 at t=10 and config 2 at t=11
(initial marks 5 and 7) drops the records at t=3 and t=6, keeps the one
at t=12, and the new minimum mark is 10; the round conclusion
instantiates at this state. -/
theorem appendUidMap_highWater_witness :
    (appendRound 100 [(1, 10), (2, 11)] roundDemoState).mChanges =
        [⟨false, 12, "c", 3, 1, "", 0, ""⟩] ∧
      getMinimumTimestampNs
        (appendRound 100 [(1, 10), (2, 11)]
          roundDemoState).mLastUpdatePerConfigKey = 10 ∧
      ∀ r ∈ (appendRound 100 [(1, 10), (2, 11)] roundDemoState).mChanges,
        ¬ r.timestampNs <
          getMinimumTimestampNs
            (appendRound 100 [(1, 10), (2, 11)]
              roundDemoState).mLastUpdatePerConfigKey :=
  ⟨by decide, by decide,
    appendUidMap_highWater.2 100 roundDemoState [(1, 10), (2, 11)] (by decide)
      (by decide) (by decide) (by decide) (by decide)⟩

end StatsdV
